import Mathlib

/-!
Verification of the encrypted fetch-by-similarity core against its
specification.  The development shallowly embeds the two HE primitives of
the repository, the slot-replication tree (slot_replication.cpp) and the
strided running sums (running_sums.cpp), together with the argument
handling of the server executable (server_encrypted_compute.cpp).

Modelling conventions:
- a ciphertext is modelled by its vector of plaintext slots, a function
  from slot index to an exact rational number; the backend operations
  EvalAdd, EvalMult by a plaintext mask, and EvalRotate act slot-wise or
  by cyclic index shifts, exactly as the CKKS slot algebra does up to
  the approximation error of the scheme (bounds such as two to the
  minus twenty become exact equalities in the rational model);
- stateful code becomes explicit state passing; the replication tree is
  a list of node records, leaf first, mirroring the parent chain of
  ReplicatorNode objects;
- fallible code (constructor checks that throw, and the one reachable
  division by zero) returns Option.
-/

/-- Slot vector of a ciphertext: slot index to rational value.  Only the
indices below the slot count S are meaningful. -/
abbrev Vec : Type := ℕ → ℚ

/-- Slot-wise sum of two slot vectors (backend EvalAdd). -/
def vAdd (a b : Vec) : Vec := fun j => a j + b j

/-- Default slot vector used when indexing lists of vectors. -/
def zeroVec : Vec := fun _ => 0

/-- Backend EvalRotate of a ciphertext with S slots by amount k.  A
positive k rotates left, slot j receives former slot (j + k) mod S; the
repository always passes negative amounts, which rotate right. -/
def evalRotate (S : ℕ) (v : Vec) (k : ℤ) : Vec :=
  fun j => v (((j : ℤ) + k) % (S : ℤ)).toNat

/-- Mask number i generated by ReplicatorNode::generate_masks for a node
of fan-out f and rotation amount r with S slots: value 1 exactly on the
runs of length r starting at offsets b * (f * r) + i * r for each block
b below S / (f * r), and 0 elsewhere (slot_replication.cpp, the
generate_masks loop over blocks and run offsets). -/
def maskVal (S f r i j : ℕ) : ℚ :=
  if (List.range (S / (f * r))).any
      (fun b => decide (b * (f * r) + i * r ≤ j ∧ j < b * (f * r) + i * r + r))
  then 1 else 0

/-- Static data of one ReplicatorNode: the fan-out (num_replicas) and the
rotation amount (rot_amt), both fixed at construction. -/
structure NodeCfg where
  deg : ℕ
  rot : ℕ
deriving DecidableEq

/-- Mutable state of one ReplicatorNode: the counter current and the
installed source ciphertext (shifts[0]); the rotated copies shifts[i]
are determined by the source, so they are not stored separately. -/
structure NodeSt where
  cur : ℕ
  src : Option Vec

/-- Replica computed by ReplicatorNode::next_replica from an installed
source v when the counter equals cur: the sum over i below the fan-out of
EvalRotate(v, -(i * rot)) times mask number (i + cur) mod deg
(slot_replication.cpp lines 130 to 135, with shifts[i] as computed by
install_source). -/
def nodeEmit (S : ℕ) (c : NodeCfg) (v : Vec) (cur : ℕ) : Vec :=
  fun j =>
    ∑ i ∈ Finset.range c.deg,
      evalRotate S v (-((i * c.rot : ℕ) : ℤ)) j *
        maskVal S c.deg c.rot ((i + cur) % c.deg) j

/-- Replicas a node still emits from source v starting at counter value
cur: one replica per counter value from cur up to the fan-out. -/
def emitsFrom (S : ℕ) (c : NodeCfg) (v : Vec) (cur : ℕ) : List Vec :=
  (List.range (c.deg - cur)).map (fun k => nodeEmit S c v (cur + k))

/-- One ReplicatorNode together with its state; a full replicator is a
list of these, leaf first, the last entry being the root. -/
abbrev Chain : Type := List (NodeCfg × NodeSt)

/-- ReplicatorNode::next_replica on the leaf-first chain.  When the
counter equals the fan-out the node needs a new source: the root (empty
parent chain) answers end (none, the null ciphertext); otherwise the
node pulls from the parent, propagates end, or installs the fresh source
(counter reset to zero by install_source) and emits the first replica of
the new source.  With a live source it emits the replica for the current
counter and increments the counter. -/
def nrep (S : ℕ) : Chain → Option Vec × Chain
  | [] => (none, [])
  | (c, st) :: rest =>
    if st.cur = c.deg then
      match rest with
      | [] => (none, [(c, st)])
      | _ :: _ =>
        match nrep S rest with
        | (none, rest2) => (none, (c, st) :: rest2)
        | (some s, rest2) => (some (nodeEmit S c s 0), (c, ⟨1, some s⟩) :: rest2)
    else
      match st.src with
      | none => (none, (c, st) :: rest)
      | some s => (some (nodeEmit S c s st.cur), (c, ⟨st.cur + 1, some s⟩) :: rest)

/-- ReplicatorNode::init on a non-empty chain with a non-null ciphertext:
the root installs the input directly, every other node installs the
first replica of its parent, and each node then returns its own first
replica via next_replica. -/
def initNode (S : ℕ) : Chain → Vec → Option Vec × Chain
  | [], _ => (none, [])
  | (c, _) :: rest, v =>
    match rest with
    | [] => nrep S [(c, ⟨0, some v⟩)]
    | r0 :: rs =>
      match initNode S (r0 :: rs) v with
      | (none, rest2) => (none, (c, ⟨c.deg, none⟩) :: rest2)
      | (some s, rest2) => nrep S ((c, ⟨0, some s⟩) :: rest2)

/-- Chain state right after DFSSlotReplicator construction: every node
has counter equal to its fan-out (current = num_replicas signals a
missing source) and no installed source. -/
def freshChain (cfgs : List NodeCfg) : Chain :=
  cfgs.map (fun c => (c, ⟨c.deg, none⟩))

/-- DFSSlotReplicator::init: a null input returns null without touching
any node; otherwise the install cascade of ReplicatorNode::init runs on
the freshly constructed chain. -/
def replInit (S : ℕ) (cfgs : List NodeCfg) (v : Option Vec) : Option Vec × Chain :=
  match v with
  | none => (none, freshChain cfgs)
  | some v => initNode S (freshChain cfgs) v

/-- Chain state after n further calls to next_replica. -/
def chainAfter (S : ℕ) (ch : Chain) : ℕ → Chain
  | 0 => ch
  | n + 1 => (nrep S (chainAfter S ch n)).2

/-- Stream of results a consumer observes: element 0 is returned by
DFSSlotReplicator::init, element k+1 by the k-th subsequent call to
DFSSlotReplicator::next_replica. -/
def replicaStream (S : ℕ) (cfgs : List NodeCfg) (v : Vec) : ℕ → Option Vec
  | 0 => (replInit S cfgs (some v)).1
  | k + 1 => (nrep S (chainAfter S (replInit S cfgs (some v)).2 k)).1

/-- Replicas still pending in a chain state: the replicas of the head
node from its current source, followed by the full fan-out of replicas
for every source the parent chain will still deliver. -/
def pendChain (S : ℕ) : Chain → List Vec
  | [] => []
  | (c, st) :: rest =>
    (match st.src with
     | none => []
     | some s => emitsFrom S c s st.cur) ++
    (pendChain S rest).flatMap (fun s => emitsFrom S c s 0)

/-- Well-formedness of a chain state: positive fan-out, counter at most
the fan-out, and a missing source only with an exhausted counter.  All
chain states reachable from a valid construction satisfy this. -/
def WFchain (ch : Chain) : Prop :=
  ∀ p ∈ ch, 1 ≤ p.1.deg ∧ p.2.cur ≤ p.1.deg ∧ (p.2.src = none → p.2.cur = p.1.deg)

/-- Denotational output list of a leaf-first chain of node configurations
on input v: the empty chain passes the input through, and a node expands
every output of the chain above it into its full fan-out of replicas, in
depth-first order. -/
def treeOutputs (S : ℕ) : List NodeCfg → Vec → List Vec
  | [], v => [v]
  | c :: rest, v => (treeOutputs S rest v).flatMap (fun s => emitsFrom S c s 0)

/-- Chain shape invariant, leaf first: the head node has rotation amount
r, each rotation amount is the product of the rotation amount and fan-out
below it, and the rotation amount times fan-out of the root equals m. -/
def validChain : List NodeCfg → ℕ → ℕ → Prop
  | [], r, m => r = m
  | c :: rest, r, m => c.rot = r ∧ 1 ≤ c.deg ∧ validChain rest (r * c.deg) m

/-- Node configurations built by the DFSSlotReplicator constructor from
the degree list (root first) and the initial rotation amount (the
pattern length): rot_amt is divided by each degree in turn and a node is
pushed with the previous chain as parent, so the resulting leaf-first
list carries the last-created node first. -/
def buildCfgs : ℕ → List ℕ → List NodeCfg
  | _, [] => []
  | rot, d :: rest => buildCfgs (rot / d) rest ++ [⟨d, rot / d⟩]

/-- Rotation amounts a node requests from the backend when a source is
installed (install_source): a single EvalRotate by -rot_amt at fan-out
two, and hoisted EvalFastRotation calls by -i * rot_amt for i from 1 to
fan-out minus 1 otherwise. -/
def installAmounts (c : NodeCfg) : List ℤ :=
  if c.deg = 2 then [-((c.rot : ℕ) : ℤ)]
  else (List.range (c.deg - 1)).map (fun i => -(((i + 1) * c.rot : ℕ) : ℤ))

/-- Loop of DFSSlotReplicator::get_rotation_amounts: starting from the
product of the degrees, divide the running rotation amount by each
degree and record -i times it for i from 1 to that degree minus 1. -/
def graLoop : ℕ → List ℕ → List ℤ
  | _, [] => []
  | rot, d :: rest =>
    ((List.range (d - 1)).map (fun i => -(((i + 1) * (rot / d) : ℕ) : ℤ)))
      ++ graLoop (rot / d) rest

/-- Static helper DFSSlotReplicator::get_rotation_amounts. -/
def getRotationAmounts (ds : List ℕ) : List ℤ :=
  graLoop ds.prod ds

/-- Outcome of the DFSSlotReplicator constructor for a non-empty degree
list, as a boolean: the checks are, in source order, input_replication
at least 1, input_replication divides the slot count, the maximal degree
at least 2, input_replication times the degree product equal to the slot
count, and finally every ReplicatorNode constructor requiring its degree
to be at least 2.  An empty degree list dereferences the end iterator of
max_element, which is undefined behaviour, modelled as failure. -/
def dfsCtorOk (S : ℕ) (ds : List ℤ) (rho : ℤ) : Bool :=
  match ds with
  | [] => false
  | d0 :: rest =>
    decide (0 < rho) && decide ((S : ℤ) % rho = 0) &&
    decide (2 ≤ rest.foldl max d0) &&
    decide ((S : ℤ) = rho * (d0 :: rest).prod) &&
    (d0 :: rest).all (fun d => decide (2 ≤ d))

/-- Structural floor of the base-two logarithm (fuel-driven so that it
reduces in the kernel); agrees with the C++ cast of std::log2 on every
positive integer, in particular exactly on powers of two. -/
def flog2Aux : ℕ → ℕ → ℕ
  | 0, _ => 0
  | fuel + 1, n => if n ≤ 1 then 0 else flog2Aux fuel (n / 2) + 1

/-- Floor of the base-two logarithm, used by the running-sums code. -/
def flog2 (n : ℕ) : ℕ := flog2Aux n n

/-- Plaintext mask built by mask4shift in running_sums.cpp: the amount is
reduced into the slot range (the C++ code takes the remainder and adds
the slot count when negative, which is exactly the nonnegative integer
remainder), and the mask holds 1 on every slot from that position to the
end of the ciphertext. -/
def mask4shift (S : ℕ) (amt : ℤ) : Vec :=
  fun j => if (amt % (S : ℤ)).toNat ≤ j ∧ j < S then 1 else 0

/-- Shared parameter computation of the RunningSums constructor and of
the static RunningSums::get_shift_amounts (the two functions repeat the
same lines): reject a slot count that is not a power of two or a stride
that does not divide it, replace a depth budget that is nonpositive or
exceeds log2 of the interval count by that logarithm, and derive the
branching factor 2 to the ceiling of logn_intervals over the budget.
When the interval count is 1 the fixed budget is 0 and the C++ ceiling
helper divc divides by zero, which is undefined behaviour; the model
returns none for it. -/
def rsParams (S stride : ℕ) (d : ℤ) : Option (ℕ × ℕ) :=
  if S ≠ 2 ^ flog2 S then none
  else if S % stride ≠ 0 then none
  else
    let n := S / stride
    let logn := flog2 n
    let dfix : ℕ := if d ≤ 0 ∨ (logn : ℤ) < d then logn else d.toNat
    if dfix = 0 then none
    else some (n, 2 ^ ((logn + dfix - 1) / dfix))

/-- Phase construction loop of the RunningSums constructor: while more
intervals remain than the branching factor, divide the interval count by
the factor and record one phase mapping each key -(stride * n * i), for
i from factor - 1 down to 1, to the mask for that shift (iteration of
the std::map is by ascending key, which coincides with this insertion
order); a final phase handles the remaining intervals with shifts
-(stride * i).  The encoding level passed to mask4shift does not affect
slot values and is omitted.  The fuel argument only makes the recursion
structural; the interval count strictly decreases whenever the factor is
at least 2, so fuel n is never exhausted in reachable uses. -/
def rsCtorLoop (S stride factor : ℕ) : ℕ → ℕ → List (List (ℤ × Vec))
  | 0, _ => []
  | fuel + 1, n =>
    if factor < n then
      let m := n / factor
      ((List.range (factor - 1)).map (fun k =>
        (-((stride * m * (factor - 1 - k) : ℕ) : ℤ),
          mask4shift S ((stride * m * (factor - 1 - k) : ℕ) : ℤ))))
        :: rsCtorLoop S stride factor fuel m
    else if 1 < n then
      [(List.range (n - 1)).map (fun k =>
        (-((stride * (n - 1 - k) : ℕ) : ℤ),
          mask4shift S ((stride * (n - 1 - k) : ℕ) : ℤ)))]
    else []

/-- Mask phases stored by the RunningSums constructor, or none when a
check throws or the interval count is 1 (division by zero in divc). -/
def rsCtorPhases (S stride : ℕ) (d : ℤ) : Option (List (List (ℤ × Vec))) :=
  (rsParams S stride d).map (fun p => rsCtorLoop S stride p.2 p.1 p.1)

/-- Loop of the static RunningSums::get_shift_amounts, pushing the same
shift amounts in the same order as the constructor records keys. -/
def rsStaticLoop (stride factor : ℕ) : ℕ → ℕ → List ℤ
  | 0, _ => []
  | fuel + 1, n =>
    if factor < n then
      let m := n / factor
      ((List.range (factor - 1)).map (fun k => -((stride * m * (factor - 1 - k) : ℕ) : ℤ)))
        ++ rsStaticLoop stride factor fuel m
    else if 1 < n then
      (List.range (n - 1)).map (fun k => -((stride * (n - 1 - k) : ℕ) : ℤ))
    else []

/-- Static helper RunningSums::get_shift_amounts. -/
def rsStaticShiftAmounts (S stride : ℕ) (d : ℤ) : Option (List ℤ) :=
  (rsParams S stride d).map (fun p => rsStaticLoop stride p.2 p.1 p.1)

/-- Instance method RunningSums::get_shift_amounts: the keys of every
phase map, phases in order, keys in ascending map order. -/
def rsKeysOf (phases : List (List (ℤ × Vec))) : List ℤ :=
  phases.flatMap (fun ph => ph.map Prod.fst)

/-- Inner loop of the first stage of eval_in_place: every ciphertext is
replaced by the sum of itself and all the ciphertexts before it. -/
def acrossSumsAux (acc : Vec) : List Vec → List Vec
  | [] => []
  | c :: rest => vAdd acc c :: acrossSumsAux (vAdd acc c) rest

/-- First stage of RunningSums::eval_in_place, the running sums across
the list of ciphertexts. -/
def acrossSums : List Vec → List Vec
  | [] => []
  | c :: rest => c :: acrossSumsAux c rest

/-- Accumulator one phase of eval_in_place adds to every ciphertext: the
sum over the phase map of the last ciphertext rotated by the key and
multiplied by the associated mask. -/
def phaseAcc (S : ℕ) (back : Vec) (ph : List (ℤ × Vec)) : Vec :=
  fun j => (ph.map (fun km => evalRotate S back km.1 j * km.2 j)).sum

/-- RunningSums::eval_in_place: the across-ciphertext stage followed by
one shift-and-add phase per stored mask map, each phase computing its
accumulator from the current last ciphertext and adding it to every
ciphertext of the vector. -/
def rsEvalInPlace (S : ℕ) (phases : List (List (ℤ × Vec))) (cts : List Vec) : List Vec :=
  phases.foldl
    (fun cs ph => cs.map (fun c => vAdd c (phaseAcc S (cs.getLast?.getD zeroVec) ph)))
    (acrossSums cts)

/-- Sum of the virtual-matrix row t at column c: the slots at index
t * stride + c of all the input ciphertexts (row block t of each). -/
def Urow (cts : List Vec) (stride t c : ℕ) : ℚ :=
  ∑ k ∈ Finset.range cts.length, cts.getD k zeroVec (t * stride + c)

/-- Partial across-ciphertext sum: slot s of the ciphertexts up to
index k. -/
def interV (cts : List Vec) (k s : ℕ) : ℚ :=
  ∑ i ∈ Finset.range cts.length, if i ≤ k then cts.getD i zeroVec s else 0

/-- Rows congruent to t modulo n, up to t, summed at column c; the
shift-and-add invariant of the last ciphertext. -/
def Gmod (cts : List Vec) (stride N n t c : ℕ) : ℚ :=
  ∑ u ∈ Finset.range N, if u ≤ t ∧ n ∣ (t - u) then Urow cts stride u c else 0

/-- Rows strictly before the row of slot s that are congruent to it
modulo n, summed at the column of s; what the phases so far have added
to every ciphertext. -/
def Dstrict (cts : List Vec) (stride N n s : ℕ) : ℚ :=
  ∑ u ∈ Finset.range N,
    if u < s / stride ∧ n ∣ (s / stride - u) then Urow cts stride u (s % stride) else 0

/-- Outcome of the argument check at the top of the server main: either
the usage text (argc < 2 or a first argument that does not start with a
digit), or a run with the parsed instance size and count-only flag. -/
inductive ServerStart where
  | usage : ServerStart
  | run (size : ℕ) (countOnly : Bool) : ServerStart
deriving DecidableEq

/-- Leading digits of a character list as parsed by std::stoi when the
first character is a digit. -/
def leadingNatVal : List Char → ℕ → ℕ
  | [], acc => acc
  | ch :: rest, acc =>
    if ch.isDigit then leadingNatVal rest (acc * 10 + (ch.toNat - 48)) else acc

/-- Command line option that switches the server to count-only mode. -/
def countOnlyFlag : String := "--count_only"

/-- Argument handling of the server main (argv without the program
name): no argument or a first argument whose first character is not a
digit prints the usage text and returns 0; otherwise the instance size
is read with std::stoi and the second argument is compared against the
count-only flag. -/
def parseServerArgs (args : List String) : ServerStart :=
  match args with
  | [] => ServerStart.usage
  | a :: rest =>
    match a.data with
    | [] => ServerStart.usage
    | ch :: _ =>
      if ch.isDigit then
        ServerStart.run (leadingNatVal a.data 0) (rest.head? == some countOnlyFlag)
      else ServerStart.usage

/-- Process exit code of the server: the usage path returns 0 from main;
on a run, main returns 0 at the end, and every surfaced failure is a
thrown exception that escapes main, so the process dies by std::abort
with a nonzero status (134).  The pipeline argument abstracts everything
that happens after argument parsing. -/
def serverExitCode (args : List String) (pipeline : Except Unit Unit) : ℕ :=
  match parseServerArgs args with
  | ServerStart.usage => 0
  | ServerStart.run _ _ =>
    match pipeline with
    | Except.ok _ => 0
    | Except.error _ => 134

/-! Helper lemmas about lists and the per-node replica lists. -/

theorem listSum_range_eq (n : ℕ) (f : ℕ → ℚ) :
    ((List.range n).map f).sum = ∑ i ∈ Finset.range n, f i := by
  induction n with
  | zero => simp
  | succ n ih => rw [List.range_succ, Finset.sum_range_succ, List.map_append]; simp [ih]

theorem flatMap_length_uniform {α β : Type} (f : α → List β) (d : ℕ) :
    ∀ (l : List α), (∀ a ∈ l, (f a).length = d) →
      (l.flatMap f).length = l.length * d := by
  intro l
  induction l with
  | nil => simp
  | cons a t ih =>
    intro h
    simp only [List.flatMap_cons, List.length_append, List.length_cons]
    rw [h a (by simp), ih (fun b hb => h b (by simp [hb]))]
    ring

theorem flatMap_getD_uniform {α β : Type} (f : α → List β) (d : ℕ) (z : β) (w : α) :
    ∀ (l : List α), (∀ a ∈ l, (f a).length = d) →
      ∀ k1 k2, k1 < l.length → k2 < d →
        (l.flatMap f).getD (k1 * d + k2) z = (f (l.getD k1 w)).getD k2 z := by
  intro l
  induction l with
  | nil => intro _ k1 _ h _; simp at h
  | cons a t ih =>
    intro h k1 k2 hk1 hk2
    cases k1 with
    | zero =>
      have hlen : (f a).length = d := h a (by simp)
      simp only [List.flatMap_cons, zero_mul, zero_add, List.getD_cons_zero]
      rw [List.getD_eq_getElem?_getD, List.getElem?_append, if_pos (by omega),
        ← List.getD_eq_getElem?_getD]
    | succ k1p =>
      have hlen : (f a).length = d := h a (by simp)
      have hidx : (k1p + 1) * d + k2 = (f a).length + (k1p * d + k2) := by
        rw [hlen]; ring
      simp only [List.flatMap_cons, List.getD_cons_succ]
      rw [List.getD_eq_getElem?_getD, hidx, List.getElem?_append, if_neg (by omega)]
      have h2 : (f a).length + (k1p * d + k2) - (f a).length = k1p * d + k2 := by omega
      rw [h2, ← List.getD_eq_getElem?_getD]
      exact ih (fun b hb => h b (by simp [hb])) k1p k2 (by simpa using hk1) hk2

theorem emitsFrom_length (S : ℕ) (c : NodeCfg) (v : Vec) (cur : ℕ) :
    (emitsFrom S c v cur).length = c.deg - cur := by
  simp [emitsFrom]

theorem emitsFrom_cons (S : ℕ) (c : NodeCfg) (v : Vec) (cur : ℕ) (h : cur < c.deg) :
    emitsFrom S c v cur = nodeEmit S c v cur :: emitsFrom S c v (cur + 1) := by
  unfold emitsFrom
  have h1 : c.deg - cur = (c.deg - (cur + 1)) + 1 := by omega
  rw [h1, List.range_succ_eq_map, List.map_cons, List.map_map]
  refine congrArg₂ _ (by rw [Nat.add_zero]) ?_
  exact List.map_congr_left (fun k _ => by simp [Nat.succ_eq_add_one]; ring_nf)

theorem emitsFrom_nil (S : ℕ) (c : NodeCfg) (v : Vec) (cur : ℕ) (h : c.deg ≤ cur) :
    emitsFrom S c v cur = [] := by
  unfold emitsFrom
  rw [Nat.sub_eq_zero_of_le h]
  simp

theorem emitsFrom_getD (S : ℕ) (c : NodeCfg) (v : Vec) (cur k : ℕ) (h : cur + k < c.deg) :
    (emitsFrom S c v cur).getD k zeroVec = nodeEmit S c v (cur + k) := by
  unfold emitsFrom
  rw [List.getD_eq_getElem (l := (List.range (c.deg - cur)).map fun k => nodeEmit S c v (cur + k))
    zeroVec (by simp; omega)]
  simp

/-! Mask and rotation characterizations. -/

theorem evalRotate_neg_nat (S : ℕ) (v : Vec) (a j : ℕ) (ha : a ≤ S) :
    evalRotate S v (-(a : ℤ)) j = v ((j + (S - a)) % S) := by
  unfold evalRotate
  congr 1
  have h1 : ((j + (S - a) : ℕ) : ℤ) = (j : ℤ) + -(a : ℤ) + (S : ℤ) * 1 := by
    push_cast [Nat.cast_sub ha]
    ring
  have h2 : ((j : ℤ) + -(a : ℤ)) % (S : ℤ) = ((j + (S - a) : ℕ) : ℤ) % (S : ℤ) := by
    rw [h1, Int.add_mul_emod_self_left]
  rw [h2, ← Int.natCast_mod]
  exact Int.toNat_natCast _

theorem mod_mul_decompose (j f r : ℕ) :
    j % (f * r) = (j / r % f) * r + j % r := by
  have e1 : j % (f * r) / r = j / r % f := by
    rw [mul_comm f r]; exact Nat.mod_mul_right_div_self j r f
  have e2 : j % (f * r) % r = j % r := Nat.mod_mod_of_dvd j ⟨f, mul_comm f r⟩
  conv_lhs => rw [← Nat.div_add_mod (j % (f * r)) r]
  rw [e1, e2]; ring

theorem maskVal_eq_indicator (S f r : ℕ) (hdvd : f * r ∣ S) (hr : 1 ≤ r)
    (i : ℕ) (hi : i < f) (j : ℕ) :
    maskVal S f r i j = if j < S ∧ j / r % f = i then 1 else 0 := by
  have hf : 1 ≤ f := by omega
  have hfr : 0 < f * r := by positivity
  unfold maskVal
  congr 1
  simp only [List.any_eq_true, List.mem_range, decide_eq_true_eq, eq_iff_iff]
  constructor
  · rintro ⟨b, hb, hle, hlt⟩
    obtain ⟨M, hM⟩ := hdvd
    have hSd : S / (f * r) = M := by rw [hM, Nat.mul_div_cancel_left _ hfr]
    have hbM : b < M := by omega
    have hjS : j < S := by
      have h2 : i * r + r ≤ f * r := by
        have h3 : (i + 1) * r ≤ f * r := Nat.mul_le_mul_right r (by omega)
        calc i * r + r = (i + 1) * r := by ring
          _ ≤ f * r := h3
      have h1 : b * (f * r) + i * r + r ≤ S := by
        calc b * (f * r) + i * r + r ≤ b * (f * r) + f * r := by omega
          _ = (b + 1) * (f * r) := by ring
          _ ≤ M * (f * r) := Nat.mul_le_mul_right _ (by omega)
          _ = S := by rw [hM]; ring
      omega
    refine ⟨hjS, ?_⟩
    have hrem : j - (b * (f * r) + i * r) < r := by omega
    have hjd : j = (b * f + i) * r + (j - (b * (f * r) + i * r)) := by
      have h4 : (b * f + i) * r = b * (f * r) + i * r := by ring
      omega
    have hdiv : j / r = b * f + i := by
      rw [hjd, mul_comm (b * f + i) r, Nat.mul_add_div (by omega), Nat.div_eq_of_lt hrem,
        Nat.add_zero]
    rw [hdiv, mul_comm b f, Nat.mul_add_mod, Nat.mod_eq_of_lt hi]
  · rintro ⟨hjS, hif⟩
    refine ⟨j / (f * r), ?_, ?_, ?_⟩
    · rw [Nat.div_lt_iff_lt_mul hfr]
      calc j < S := hjS
        _ = S / (f * r) * (f * r) := (Nat.div_mul_cancel hdvd).symm
    all_goals {
      have e3 : j % (f * r) = i * r + j % r := by rw [mod_mul_decompose j f r, hif]
      have e4 : j / (f * r) * (f * r) + j % (f * r) = j := by
        rw [mul_comm]; exact Nat.div_add_mod j (f * r)
      have e5 : j % r < r := Nat.mod_lt _ (by omega)
      omega }

theorem nodeEmit_pattern (S : ℕ) (hS : 0 < S) (c : NodeCfg) (hr : 1 ≤ c.rot)
    (hdvd : c.deg * c.rot ∣ S) (v q : Vec)
    (hv : ∀ j, j < S → v j = q (j % (c.deg * c.rot)))
    (cur : ℕ) (hcur : cur < c.deg) :
    ∀ j, j < S → nodeEmit S c v cur j = q (cur * c.rot + j % c.rot) := by
  intro j hj
  set f := c.deg with hfdef
  set r := c.rot with hrdef
  have hf : 1 ≤ f := by omega
  have hfrS : f * r ≤ S := Nat.le_of_dvd hS hdvd
  have hrpos : 0 < r := hr
  set t := j / r % f with htdef
  have ht : t < f := Nat.mod_lt _ (by omega)
  set i0 := (t + f - cur) % f with hi0def
  have hi0 : i0 < f := Nat.mod_lt _ (by omega)
  have hkey : (i0 + cur) % f = t := by
    have h1 : (i0 + cur) % f = (t + f - cur + cur) % f := by
      rw [hi0def, Nat.mod_add_mod]
    have h2 : t + f - cur + cur = t + f := by omega
    rw [h1, h2, Nat.add_mod_right, Nat.mod_eq_of_lt ht]
  unfold nodeEmit
  rw [Finset.sum_eq_single i0]
  · have hmask : maskVal S f r ((i0 + cur) % f) j = 1 := by
      rw [maskVal_eq_indicator S f r hdvd hr _ (Nat.mod_lt _ (by omega)) j,
        if_pos ⟨hj, by rw [hkey]⟩]
    rw [hmask, mul_one]
    have hfr1 : i0 * r ≤ f * r := Nat.mul_le_mul_right r (le_of_lt hi0)
    rw [evalRotate_neg_nat S v (i0 * r) j (le_trans hfr1 hfrS)]
    have hidx : (j + (S - i0 * r)) % S < S := Nat.mod_lt _ hS
    rw [hv _ hidx]
    congr 1
    have e0 : ((j + (S - i0 * r)) % S) % (f * r) = (j + (S - i0 * r)) % (f * r) :=
      Nat.mod_mod_of_dvd _ hdvd
    obtain ⟨M, hM⟩ := hdvd
    have hM1 : 1 ≤ M := by
      rcases Nat.eq_zero_or_pos M with h | h
      · rw [h, Nat.mul_zero] at hM; omega
      · exact h
    have hG : f * r * (M - 1) + f * r = f * r * M := by
      have hM2 : M - 1 + 1 = M := by omega
      calc f * r * (M - 1) + f * r = f * r * ((M - 1) + 1) := by ring
        _ = f * r * M := by rw [hM2]
    have e1 : j + (S - i0 * r) = (j + (f * r - i0 * r)) + f * r * (M - 1) := by omega
    rw [e0, e1, Nat.add_mul_mod_self_left, ← Nat.mod_add_mod,
      mod_mul_decompose j f r, ← htdef]
    have hcurb : cur * r + j % r < f * r := by
      have h5 : j % r < r := Nat.mod_lt _ (by omega)
      have h6 : (cur + 1) * r ≤ f * r := Nat.mul_le_mul_right r (by omega)
      have h7 : (cur + 1) * r = cur * r + r := by ring
      omega
    rcases le_or_lt cur t with hct | htc
    · have hi0v : i0 = t - cur := by
        rw [hi0def]
        have h8 : t + f - cur = (t - cur) + f := by omega
        rw [h8, Nat.add_mod_right, Nat.mod_eq_of_lt (by omega)]
      have e3 : (t - cur) * r = t * r - cur * r := Nat.sub_mul t cur r
      have e4 : t * r + j % r + (f * r - i0 * r) = (cur * r + j % r) + f * r := by
        have h6 : cur * r ≤ t * r := Nat.mul_le_mul_right r hct
        have h7 : t * r ≤ f * r := Nat.mul_le_mul_right r (le_of_lt ht)
        rw [hi0v, e3]
        omega
      rw [e4, Nat.add_mod_right, Nat.mod_eq_of_lt hcurb]
    · have hi0v : i0 = t + f - cur := by
        rw [hi0def, Nat.mod_eq_of_lt (by omega)]
      have e4 : t * r + j % r + (f * r - i0 * r) = cur * r + j % r := by
        have h6 : cur * r ≤ f * r := Nat.mul_le_mul_right r (le_of_lt hcur)
        have h7 : t * r ≤ cur * r := Nat.mul_le_mul_right r (le_of_lt htc)
        have h9 : i0 * r = t * r + f * r - cur * r := by
          rw [hi0v, Nat.sub_mul, Nat.add_mul]
        omega
      rw [e4, Nat.mod_eq_of_lt hcurb]
  · intro i hi hne
    have him : i < f := Finset.mem_range.mp hi
    have hmask0 : maskVal S f r ((i + cur) % f) j = 0 := by
      rw [maskVal_eq_indicator S f r hdvd hr _ (Nat.mod_lt _ (by omega)) j, if_neg]
      rintro ⟨-, habs⟩
      have h8 : (i + cur) % f = (i0 + cur) % f := by rw [hkey]; exact habs.symm
      have hmodeq : i % f = i0 % f := Nat.ModEq.add_right_cancel' cur h8
      rw [Nat.mod_eq_of_lt him, Nat.mod_eq_of_lt hi0] at hmodeq
      exact hne hmodeq
    rw [hmask0, mul_zero]
  · intro habs
    exact absurd (Finset.mem_range.mpr hi0) habs

/-! Simulation of the stateful replicator by the pending-output list. -/

theorem freshChain_cons (c : NodeCfg) (rest : List NodeCfg) :
    freshChain (c :: rest) = (c, ⟨c.deg, none⟩) :: freshChain rest := rfl

theorem pendChain_fresh (S : ℕ) (cfgs : List NodeCfg) :
    pendChain S (freshChain cfgs) = [] := by
  induction cfgs with
  | nil => simp [freshChain, pendChain]
  | cons c rest ih =>
    rw [freshChain_cons]
    simp only [pendChain, ih]
    simp

theorem WFchain_fresh (cfgs : List NodeCfg) (h : ∀ c ∈ cfgs, 1 ≤ c.deg) :
    WFchain (freshChain cfgs) := by
  intro p hp
  simp only [freshChain, List.mem_map] at hp
  obtain ⟨c, hc, rfl⟩ := hp
  exact ⟨h c hc, le_refl _, fun _ => rfl⟩

theorem nrep_pend (S : ℕ) : ∀ ch : Chain, WFchain ch →
    (nrep S ch).1 = (pendChain S ch).head? ∧
    pendChain S (nrep S ch).2 = (pendChain S ch).tail ∧
    WFchain (nrep S ch).2 := by
  intro ch
  induction ch with
  | nil =>
    intro _
    refine ⟨rfl, rfl, ?_⟩
    intro p hp
    simp [nrep] at hp
  | cons p rest ih =>
    obtain ⟨c, cur0, src0⟩ := p
    intro hwf
    obtain ⟨hdeg, hcur, hsrc⟩ := hwf (c, ⟨cur0, src0⟩) (by simp)
    simp only at hdeg hcur hsrc
    have hwfr : WFchain rest := fun q hq => hwf q (by simp [hq])
    by_cases hce : cur0 = c.deg
    · have hpin0 : ∀ REST : Chain, pendChain S ((c, ⟨cur0, src0⟩) :: REST)
          = (pendChain S REST).flatMap (fun t => emitsFrom S c t 0) := by
        intro REST
        cases src0 with
        | none => simp [pendChain]
        | some s =>
          simp only [pendChain]
          rw [emitsFrom_nil S c s cur0 (by omega)]
          simp
      cases rest with
      | nil =>
        have hres : nrep S [(c, ⟨cur0, src0⟩)] = (none, [(c, ⟨cur0, src0⟩)]) := by
          simp [nrep, hce]
        have hpend : pendChain S [(c, ⟨cur0, src0⟩)] = [] := by
          rw [hpin0]
          simp [pendChain]
        rw [hres, hpend]
        exact ⟨rfl, rfl, fun q hq => hwf q hq⟩
      | cons r0 rs =>
        obtain ⟨ih1, ih2, ih3⟩ := ih hwfr
        rcases hn : nrep S (r0 :: rs) with ⟨o, rest2⟩
        rw [hn] at ih1 ih2 ih3
        cases o with
        | none =>
          have hpr : pendChain S (r0 :: rs) = [] :=
            List.head?_eq_none_iff.mp ih1.symm
          have hres : nrep S ((c, ⟨cur0, src0⟩) :: r0 :: rs)
              = (none, (c, ⟨cur0, src0⟩) :: rest2) := by
            rw [nrep.eq_def]
            simp only [if_pos hce, hn]
          rw [hres]
          have hpin : pendChain S ((c, ⟨cur0, src0⟩) :: r0 :: rs) = [] := by
            rw [hpin0, hpr]
            rfl
          have hpout : pendChain S ((c, ⟨cur0, src0⟩) :: rest2) = [] := by
            rw [hpin0]
            rw [hpr] at ih2
            rw [ih2]
            rfl
          refine ⟨by rw [hpin]; rfl, by rw [hpout, hpin]; rfl, ?_⟩
          intro q hq
          rcases List.mem_cons.mp hq with h | h
          · subst h; exact ⟨hdeg, hcur, hsrc⟩
          · exact ih3 q h
        | some s =>
          have hres : nrep S ((c, ⟨cur0, src0⟩) :: r0 :: rs) =
              (some (nodeEmit S c s 0), (c, ⟨1, some s⟩) :: rest2) := by
            rw [nrep.eq_def]
            simp only [if_pos hce, hn]
          have hpr : pendChain S (r0 :: rs) = s :: pendChain S rest2 := by
            rcases hpc : pendChain S (r0 :: rs) with _ | ⟨x, xs⟩
            · rw [hpc] at ih1; simp at ih1
            · rw [hpc] at ih1 ih2
              simp only [List.head?_cons] at ih1
              have hx : s = x := Option.some.inj ih1
              simp only [List.tail_cons] at ih2
              rw [ih2, ← hx]
          rw [hres]
          have hpin : pendChain S ((c, ⟨cur0, src0⟩) :: r0 :: rs)
              = nodeEmit S c s 0 :: (emitsFrom S c s 1 ++
                (pendChain S rest2).flatMap (fun t => emitsFrom S c t 0)) := by
            rw [hpin0, hpr, List.flatMap_cons, emitsFrom_cons S c s 0 (by omega)]
            simp
          have hpout : pendChain S ((c, ⟨1, some s⟩) :: rest2)
              = emitsFrom S c s 1 ++
                (pendChain S rest2).flatMap (fun t => emitsFrom S c t 0) := by
            simp only [pendChain]
          refine ⟨by rw [hpin]; rfl, by rw [hpout, hpin]; rfl, ?_⟩
          intro q hq
          rcases List.mem_cons.mp hq with h | h
          · subst h
            refine ⟨hdeg, by show (1 : ℕ) ≤ c.deg; omega, fun habs => by simp at habs⟩
          · exact ih3 q h
    · have hclt : cur0 < c.deg := lt_of_le_of_ne hcur hce
      rcases src0 with _ | s
      · exact absurd (hsrc rfl) hce
      have hres : nrep S ((c, ⟨cur0, some s⟩) :: rest) =
          (some (nodeEmit S c s cur0), (c, ⟨cur0 + 1, some s⟩) :: rest) := by
        simp [nrep, hce]
      have hpin : pendChain S ((c, ⟨cur0, some s⟩) :: rest)
          = nodeEmit S c s cur0 :: (emitsFrom S c s (cur0 + 1) ++
            (pendChain S rest).flatMap (fun t => emitsFrom S c t 0)) := by
        simp only [pendChain]
        rw [emitsFrom_cons S c s cur0 hclt]
        simp
      have hpout : pendChain S ((c, ⟨cur0 + 1, some s⟩) :: rest)
          = emitsFrom S c s (cur0 + 1) ++
            (pendChain S rest).flatMap (fun t => emitsFrom S c t 0) := by
        simp only [pendChain]
      rw [hres]
      refine ⟨by rw [hpin]; rfl, by rw [hpout, hpin]; rfl, ?_⟩
      intro q hq
      rcases List.mem_cons.mp hq with h | h
      · subst h
        refine ⟨hdeg, by show cur0 + 1 ≤ c.deg; omega, fun habs => by simp at habs⟩
      · exact hwfr q h

theorem treeOutputs_length (S : ℕ) (cfgs : List NodeCfg) (v : Vec) :
    (treeOutputs S cfgs v).length = (cfgs.map (fun c => c.deg)).prod := by
  induction cfgs generalizing v with
  | nil => simp [treeOutputs]
  | cons c rest ih =>
    simp only [treeOutputs]
    rw [flatMap_length_uniform (fun s => emitsFrom S c s 0) c.deg _
      (fun a _ => by rw [emitsFrom_length]; omega), ih]
    simp [mul_comm]

theorem treeOutputs_ne_nil (S : ℕ) (cfgs : List NodeCfg) (v : Vec)
    (h : ∀ c ∈ cfgs, 1 ≤ c.deg) : treeOutputs S cfgs v ≠ [] := by
  intro habs
  have hlen := treeOutputs_length S cfgs v
  rw [habs] at hlen
  have hp : 0 < (cfgs.map (fun c => c.deg)).prod := by
    apply List.prod_pos
    intro x hx
    simp only [List.mem_map] at hx
    obtain ⟨c, hc, rfl⟩ := hx
    exact h c hc
  simp at hlen
  omega

theorem initNode_spec (S : ℕ) : ∀ (cfgs : List NodeCfg) (v : Vec),
    (∀ c ∈ cfgs, 1 ≤ c.deg) → cfgs ≠ [] →
    (initNode S (freshChain cfgs) v).1 = (treeOutputs S cfgs v).head? ∧
    pendChain S (initNode S (freshChain cfgs) v).2 = (treeOutputs S cfgs v).tail ∧
    WFchain (initNode S (freshChain cfgs) v).2 := by
  intro cfgs
  induction cfgs with
  | nil => intro v _ hne; exact absurd rfl hne
  | cons c rest ih =>
    intro v hdeg hne
    have hdc : 1 ≤ c.deg := hdeg c (by simp)
    have hne0 : ¬((0 : ℕ) = c.deg) := by omega
    cases rest with
    | nil =>
      have hstep : initNode S (freshChain [c]) v = nrep S [(c, ⟨0, some v⟩)] := rfl
      have hnr : nrep S [(c, ⟨0, some v⟩)] =
          (some (nodeEmit S c v 0), [(c, ⟨1, some v⟩)]) := by
        simp [nrep, hne0]
      have htree : treeOutputs S [c] v = nodeEmit S c v 0 :: emitsFrom S c v 1 := by
        rw [treeOutputs.eq_def]
        show (treeOutputs S [] v).flatMap (fun s => emitsFrom S c s 0) = _
        rw [treeOutputs.eq_def]
        simp only [List.flatMap_cons, List.flatMap_nil, List.append_nil]
        rw [emitsFrom_cons S c v 0 (by omega)]
      rw [hstep, hnr, htree]
      refine ⟨rfl, ?_, ?_⟩
      · simp [pendChain]
      · intro q hq
        simp only [List.mem_singleton] at hq
        subst hq
        exact ⟨hdc, by show (1 : ℕ) ≤ c.deg; omega, fun habs => by simp at habs⟩
    | cons c2 rest2 =>
      obtain ⟨ih1, ih2, ih3⟩ := ih v (fun d hd => hdeg d (by simp [hd])) (by simp)
      obtain ⟨s, T, hT⟩ : ∃ s T, treeOutputs S (c2 :: rest2) v = s :: T := by
        rcases htt : treeOutputs S (c2 :: rest2) v with _ | ⟨s, T⟩
        · exact absurd htt
            (treeOutputs_ne_nil S (c2 :: rest2) v (fun d hd => hdeg d (by simp [hd])))
        · exact ⟨s, T, rfl⟩
      rw [hT] at ih1 ih2
      rcases hin : initNode S (freshChain (c2 :: rest2)) v with ⟨o, ch2⟩
      rw [hin] at ih1 ih2 ih3
      have ho : o = some s := by simpa using ih1
      subst ho
      have hFC : freshChain (c2 :: rest2) = (c2, ⟨c2.deg, none⟩) :: freshChain rest2 :=
        freshChain_cons c2 rest2
      rw [hFC] at hin
      have hstep : initNode S (freshChain (c :: c2 :: rest2)) v
          = nrep S ((c, ⟨0, some s⟩) :: ch2) := by
        rw [freshChain_cons, hFC, initNode.eq_def]
        simp only [hin]
      have hnr : nrep S ((c, ⟨0, some s⟩) :: ch2)
          = (some (nodeEmit S c s 0), (c, ⟨1, some s⟩) :: ch2) := by
        simp [nrep, hne0]
      have htree : treeOutputs S (c :: c2 :: rest2) v
          = nodeEmit S c s 0 :: (emitsFrom S c s 1 ++
            T.flatMap (fun t => emitsFrom S c t 0)) := by
        rw [treeOutputs.eq_def]
        show (treeOutputs S (c2 :: rest2) v).flatMap (fun t => emitsFrom S c t 0) = _
        rw [hT, List.flatMap_cons, emitsFrom_cons S c s 0 (by omega)]
        simp
      rw [hstep, hnr, htree]
      refine ⟨rfl, ?_, ?_⟩
      · show pendChain S ((c, ⟨1, some s⟩) :: ch2) = _
        simp only [pendChain, ih2]
        simp
      · intro q hq
        rcases List.mem_cons.mp hq with h | h
        · subst h
          exact ⟨hdc, by show (1 : ℕ) ≤ c.deg; omega, fun habs => by simp at habs⟩
        · exact ih3 q h

theorem pend_chainAfter (S : ℕ) (ch : Chain) (h : WFchain ch) :
    ∀ n, pendChain S (chainAfter S ch n) = (pendChain S ch).drop n ∧
      WFchain (chainAfter S ch n) := by
  intro n
  induction n with
  | zero => exact ⟨by simp [chainAfter], h⟩
  | succ n ih =>
    obtain ⟨ih1, ih2⟩ := ih
    have hs := nrep_pend S (chainAfter S ch n) ih2
    refine ⟨?_, hs.2.2⟩
    show pendChain S (nrep S (chainAfter S ch n)).2 = _
    rw [hs.2.1, ih1, List.tail_drop]

theorem pullAt_eq_get (S : ℕ) (ch : Chain) (h : WFchain ch) (n : ℕ) :
    (nrep S (chainAfter S ch n)).1 = (pendChain S ch)[n]? := by
  obtain ⟨h1, h2⟩ := pend_chainAfter S ch h n
  rw [(nrep_pend S _ h2).1, h1, List.head?_drop]

theorem replicaStream_eq_treeOutputs (S : ℕ) (cfgs : List NodeCfg) (v : Vec)
    (hdeg : ∀ c ∈ cfgs, 1 ≤ c.deg) (hne : cfgs ≠ []) :
    ∀ k, replicaStream S cfgs v k = (treeOutputs S cfgs v)[k]? := by
  obtain ⟨h1, h2, h3⟩ := initNode_spec S cfgs v hdeg hne
  intro k
  cases k with
  | zero =>
    show (replInit S cfgs (some v)).1 = _
    rw [show replInit S cfgs (some v) = initNode S (freshChain cfgs) v from rfl, h1,
      List.head?_eq_getElem?]
  | succ k =>
    show (nrep S (chainAfter S (replInit S cfgs (some v)).2 k)).1 = _
    rw [show replInit S cfgs (some v) = initNode S (freshChain cfgs) v from rfl,
      pullAt_eq_get S _ h3 k, h2, List.getElem?_tail]

theorem validChain_dvd : ∀ (cfgs : List NodeCfg) (r m : ℕ), validChain cfgs r m → r ∣ m := by
  intro cfgs
  induction cfgs with
  | nil => intro r m h; exact h ▸ dvd_refl r
  | cons c rest ih =>
    intro r m h
    exact dvd_trans (dvd_mul_right r c.deg) (ih _ _ h.2.2)

theorem validChain_snoc : ∀ (xs : List NodeCfg) (r g d rt : ℕ), validChain xs r g →
    rt = g → 1 ≤ d → validChain (xs ++ [⟨d, rt⟩]) r (g * d) := by
  intro xs
  induction xs with
  | nil =>
    intro r g d rt h hrt hd
    have hr : r = g := h
    refine ⟨?_, hd, ?_⟩
    · show rt = r
      omega
    · show r * d = g * d
      rw [hr]
  | cons c rest ih =>
    intro r g d rt h hrt hd
    obtain ⟨h1, h2, h3⟩ := h
    exact ⟨h1, h2, ih _ _ _ _ h3 hrt hd⟩

theorem buildCfgs_validChain : ∀ (ds : List ℕ) (rot : ℕ), (∀ d ∈ ds, 1 ≤ d) →
    ds.prod ∣ rot → validChain (buildCfgs rot ds) (rot / ds.prod) rot := by
  intro ds
  induction ds with
  | nil =>
    intro rot _ _
    show validChain [] (rot / 1) rot
    simp [validChain]
  | cons d rest ih =>
    intro rot hds hdvd
    have hd1 : 1 ≤ d := hds d (by simp)
    have hdr : d ∣ rot := by
      refine dvd_trans (dvd_mul_right d rest.prod) ?_
      simpa using hdvd
    have hdvd2 : rest.prod ∣ rot / d := by
      rw [Nat.dvd_div_iff hdr]
      simpa using hdvd
    have h1 := validChain_snoc _ _ _ d (rot / d)
      (ih (rot / d) (fun x hx => hds x (by simp [hx])) hdvd2) rfl hd1
    show validChain (buildCfgs (rot / d) rest ++ [⟨d, rot / d⟩]) (rot / (d :: rest).prod) rot
    have e1 : rot / (d :: rest).prod = rot / d / rest.prod := by
      rw [List.prod_cons, Nat.div_div_eq_div_mul]
    rw [e1]
    have e2 : rot / d * d = rot := Nat.div_mul_cancel hdr
    convert h1 using 1
    exact e2.symm

theorem buildCfgs_deg_mem : ∀ (ds : List ℕ) (rot : ℕ) (c : NodeCfg),
    c ∈ buildCfgs rot ds → c.deg ∈ ds := by
  intro ds
  induction ds with
  | nil => intro rot c h; simp [buildCfgs] at h
  | cons d rest ih =>
    intro rot c h
    simp only [buildCfgs, List.mem_append, List.mem_singleton] at h
    rcases h with h | h
    · exact List.mem_cons_of_mem d (ih _ _ h)
    · subst h; simp

theorem buildCfgs_ne_nil (ds : List ℕ) (rot : ℕ) (h : ds ≠ []) :
    buildCfgs rot ds ≠ [] := by
  cases ds with
  | nil => exact absurd rfl h
  | cons d rest => simp [buildCfgs]

theorem buildCfgs_deg_prod : ∀ (ds : List ℕ) (rot : ℕ),
    ((buildCfgs rot ds).map (fun c => c.deg)).prod = ds.prod := by
  intro ds
  induction ds with
  | nil => intro rot; simp [buildCfgs]
  | cons d rest ih =>
    intro rot
    simp only [buildCfgs, List.map_append, List.prod_append, ih, List.prod_cons]
    simp [mul_comm]

theorem treeOut_spec (S : ℕ) (hS : 0 < S) : ∀ (cfgs : List NodeCfg) (r m : ℕ),
    validChain cfgs r m → 1 ≤ r → m ∣ S → ∀ (v p : Vec),
    (∀ j, j < S → v j = p (j % m)) →
    (treeOutputs S cfgs v).length = m / r ∧
    ∀ k, k < m / r → ∀ j, j < S →
      (treeOutputs S cfgs v).getD k zeroVec j = p (k * r + j % r) := by
  intro cfgs
  induction cfgs with
  | nil =>
    intro r m hvc hr hmS v p hv
    have hrm : r = m := hvc
    subst hrm
    constructor
    · show ([v] : List Vec).length = r / r
      rw [Nat.div_self (by omega)]
      rfl
    · intro k hk j hj
      rw [Nat.div_self (by omega)] at hk
      have hk0 : k = 0 := by omega
      subst hk0
      show v j = p (0 * r + j % r)
      rw [hv j hj, zero_mul, zero_add]
  | cons c rest ih =>
    intro r m hvc hr hmS v p hv
    obtain ⟨hcr, hcdeg, hvc2⟩ := hvc
    have hr2 : 1 ≤ r * c.deg := Nat.mul_pos (by omega) (by omega)
    obtain ⟨ihlen, ihval⟩ := ih (r * c.deg) m hvc2 hr2 hmS v p hv
    have hdvd2 : r * c.deg ∣ m := validChain_dvd rest (r * c.deg) m hvc2
    obtain ⟨q, hq⟩ := hdvd2
    have hql : m / (r * c.deg) = q := by
      rw [hq, Nat.mul_div_cancel_left _ (by omega)]
    have hmr : m / r = c.deg * q := by
      rw [hq, mul_assoc, Nat.mul_div_cancel_left _ (by omega : 0 < r)]
    have hunif : ∀ a ∈ treeOutputs S rest v, (emitsFrom S c a 0).length = c.deg :=
      fun a _ => by rw [emitsFrom_length]; omega
    have hlen : (treeOutputs S (c :: rest) v).length = m / r := by
      show ((treeOutputs S rest v).flatMap (fun s => emitsFrom S c s 0)).length = m / r
      rw [flatMap_length_uniform (fun s => emitsFrom S c s 0) c.deg
        (treeOutputs S rest v) hunif, ihlen, hql, hmr]
      ring
    refine ⟨hlen, ?_⟩
    intro k hk j hj
    have hdegpos : 0 < c.deg := by omega
    set k1 := k / c.deg with hk1def
    set k2 := k % c.deg with hk2def
    have hk2lt : k2 < c.deg := Nat.mod_lt _ hdegpos
    have hkdec : k = k1 * c.deg + k2 := by
      rw [hk1def, hk2def, mul_comm]
      exact (Nat.div_add_mod k c.deg).symm
    have hk1lt : k1 < q := by
      rw [hk1def, Nat.div_lt_iff_lt_mul hdegpos]
      calc k < m / r := hk
        _ = q * c.deg := by rw [hmr]; ring
    have hT1 : k1 < (treeOutputs S rest v).length := by
      rw [ihlen, hql]; exact hk1lt
    have hget : (treeOutputs S (c :: rest) v).getD k zeroVec
        = nodeEmit S c ((treeOutputs S rest v).getD k1 zeroVec) k2 := by
      show ((treeOutputs S rest v).flatMap (fun s => emitsFrom S c s 0)).getD k zeroVec = _
      rw [hkdec, flatMap_getD_uniform (fun s => emitsFrom S c s 0) c.deg zeroVec zeroVec
        (treeOutputs S rest v) hunif k1 k2 hT1 hk2lt,
        emitsFrom_getD S c _ 0 k2 (by omega), Nat.zero_add]
    rw [hget]
    have hsrc : ∀ j2, j2 < S → (treeOutputs S rest v).getD k1 zeroVec j2
        = p (k1 * (r * c.deg) + j2 % (r * c.deg)) := by
      intro j2 hj2
      exact ihval k1 (by rw [hql]; exact hk1lt) j2 hj2
    have hdvdS : c.deg * c.rot ∣ S := by
      rw [hcr, mul_comm]
      exact dvd_trans ⟨q, hq⟩ hmS
    have hmain := nodeEmit_pattern S hS c (by rw [hcr]; omega) hdvdS
      ((treeOutputs S rest v).getD k1 zeroVec)
      (fun u => p (k1 * (r * c.deg) + u))
      (by
        intro j2 hj2
        rw [hsrc j2 hj2]
        congr 2
        rw [hcr, mul_comm])
      k2 hk2lt
    rw [hmain j hj]
    show p (k1 * (r * c.deg) + (k2 * c.rot + j % c.rot)) = p (k * r + j % r)
    congr 1
    rw [hcr, hkdec]
    ring

/-- C1: for every tree-degree list with entries at least 2 and input
replication rho at least 1 with rho times the degree product equal to
the slot count S, and every input whose S slots repeat a pattern p of
length P = S / rho, the stream produced by DFSSlotReplicator::init
followed by next_replica calls has as its k-th element (k below P) a
ciphertext whose every slot equals slot k of the pattern.  In the exact
rational slot model the two-to-the-minus-twenty decryption bound of the
specification becomes exact equality. -/
theorem replicator_streams_pattern_slots (S : ℕ) (ds : List ℕ) (rho : ℕ)
    (hds : ∀ d ∈ ds, 2 ≤ d) (hne : ds ≠ []) (hrho : 1 ≤ rho)
    (hprod : rho * ds.prod = S) (v p : Vec)
    (hv : ∀ j, j < S → v j = p (j % (S / rho))) :
    ∀ k, k < S / rho → ∃ w, replicaStream S (buildCfgs (S / rho) ds) v k = some w ∧
      ∀ j, j < S → w j = p k := by
  have hprodpos : 0 < ds.prod := List.prod_pos (fun d hd => by have := hds d hd; omega)
  have hS0 : 0 < S := by
    rw [← hprod]
    exact Nat.mul_pos (by omega) hprodpos
  have hP : S / rho = ds.prod := by
    rw [← hprod, Nat.mul_div_cancel_left _ (by omega)]
  have hdeg1 : ∀ c ∈ buildCfgs (S / rho) ds, 1 ≤ c.deg := by
    intro c hc
    have := hds c.deg (buildCfgs_deg_mem ds (S / rho) c hc)
    omega
  have hcne : buildCfgs (S / rho) ds ≠ [] := buildCfgs_ne_nil ds (S / rho) hne
  have hvc : validChain (buildCfgs (S / rho) ds) 1 (S / rho) := by
    have h1 := buildCfgs_validChain ds (S / rho)
      (fun d hd => by have := hds d hd; omega) (by rw [hP])
    have h2 : S / rho / ds.prod = 1 := by rw [hP, Nat.div_self hprodpos]
    rw [h2] at h1
    exact h1
  have hPS : S / rho ∣ S := ⟨rho, by rw [hP, ← hprod]; ring⟩
  obtain ⟨hlen, hval⟩ := treeOut_spec S hS0 (buildCfgs (S / rho) ds) 1 (S / rho)
    hvc (le_refl 1) hPS v p hv
  intro k hk
  have hklen : k < (treeOutputs S (buildCfgs (S / rho) ds) v).length := by
    rw [hlen, Nat.div_one]
    exact hk
  refine ⟨(treeOutputs S (buildCfgs (S / rho) ds) v).getD k zeroVec, ?_, ?_⟩
  · rw [replicaStream_eq_treeOutputs S _ v hdeg1 hcne k,
      List.getElem?_eq_getElem hklen, List.getD_eq_getElem _ zeroVec hklen]
  · intro j hj
    have hvk := hval k (by rw [Nat.div_one]; exact hk) j hj
    simpa [Nat.mod_one] using hvk

/-- C1 witness: slot count 8, degrees [2, 2], input replication 2, the
input repeating the pattern 0 1 2 3 twice; the theorem applies and each
of the four replicas broadcasts one pattern slot. -/
theorem replicator_streams_pattern_slots_witness :
    (∀ d ∈ ([2, 2] : List ℕ), 2 ≤ d) ∧ (([2, 2] : List ℕ) ≠ []) ∧ (1 ≤ 2) ∧
    (2 * ([2, 2] : List ℕ).prod = 8) ∧
    (∀ j, j < 8 → ((j % 4 : ℕ) : ℚ) = (((j % (8 / 2)) % 4 : ℕ) : ℚ)) ∧
    (∀ k, k < 8 / 2 → ∃ w, replicaStream 8 (buildCfgs (8 / 2) [2, 2])
        (fun j => ((j % 4 : ℕ) : ℚ)) k = some w ∧
      ∀ j, j < 8 → w j = ((k % 4 : ℕ) : ℚ)) := by
  refine ⟨by decide, by decide, by decide, by decide, by decide, ?_⟩
  exact replicator_streams_pattern_slots 8 [2, 2] 2 (by decide) (by decide) (by decide)
    (by decide) (fun j => ((j % 4 : ℕ) : ℚ)) (fun k => ((k % 4 : ℕ) : ℚ)) (by decide)

/-- C3: for every valid configuration and every installed input, the
replicator yields exactly P = S / rho replicas, the one from init plus
P - 1 from next_replica; the pull with index P returns the end sentinel
and so does every later pull. -/
theorem replicator_yields_P_then_end (S : ℕ) (ds : List ℕ) (rho : ℕ)
    (hds : ∀ d ∈ ds, 2 ≤ d) (hne : ds ≠ []) (hrho : 1 ≤ rho)
    (hprod : rho * ds.prod = S) (v : Vec) :
    (∀ k, k < S / rho → (replicaStream S (buildCfgs (S / rho) ds) v k).isSome = true) ∧
    (∀ k, S / rho ≤ k → replicaStream S (buildCfgs (S / rho) ds) v k = none) := by
  have hP : S / rho = ds.prod := by
    rw [← hprod, Nat.mul_div_cancel_left _ (by omega)]
  have hdeg1 : ∀ c ∈ buildCfgs (S / rho) ds, 1 ≤ c.deg := by
    intro c hc
    have := hds c.deg (buildCfgs_deg_mem ds (S / rho) c hc)
    omega
  have hcne : buildCfgs (S / rho) ds ≠ [] := buildCfgs_ne_nil ds (S / rho) hne
  have hlen : (treeOutputs S (buildCfgs (S / rho) ds) v).length = S / rho := by
    rw [treeOutputs_length, buildCfgs_deg_prod, hP]
  constructor
  · intro k hk
    rw [replicaStream_eq_treeOutputs S _ v hdeg1 hcne k,
      List.getElem?_eq_getElem (by rw [hlen]; exact hk)]
    rfl
  · intro k hk
    rw [replicaStream_eq_treeOutputs S _ v hdeg1 hcne k]
    exact List.getElem?_eq_none (by rw [hlen]; exact hk)

/-- C3 witness: slot count 4, the single-level tree of degree 4 and no
input replication; four pulls succeed and every later pull returns the
end sentinel. -/
theorem replicator_yields_P_then_end_witness :
    (∀ d ∈ ([4] : List ℕ), 2 ≤ d) ∧ (([4] : List ℕ) ≠ []) ∧ (1 ≤ 1) ∧
    (1 * ([4] : List ℕ).prod = 4) ∧
    ((∀ k, k < 4 / 1 → (replicaStream 4 (buildCfgs (4 / 1) [4])
        (fun j => ((j : ℕ) : ℚ)) k).isSome = true) ∧
     (∀ k, 4 / 1 ≤ k → replicaStream 4 (buildCfgs (4 / 1) [4])
        (fun j => ((j : ℕ) : ℚ)) k = none)) := by
  refine ⟨by decide, by decide, by decide, by decide, ?_⟩
  exact replicator_yields_P_then_end 4 [4] 1 (by decide) (by decide) (by decide)
    (by decide) (fun j => ((j : ℕ) : ℚ))

/-- C10: at the public interface the degenerate inputs return the end
sentinel instead of failing: init with a null ciphertext returns null
and leaves every node untouched, next_replica on a never-initialized
replicator returns null, every node starts with its counter equal to
its fan-out and no source, and the root ends the pull cascade because
it has no parent. -/
theorem replicator_degenerate_returns_end (S : ℕ) (cfgs : List NodeCfg) :
    replInit S cfgs none = (none, freshChain cfgs) ∧
    nrep S (freshChain cfgs) = (none, freshChain cfgs) ∧
    ∀ q ∈ freshChain cfgs, q.2.cur = q.1.deg ∧ q.2.src = none := by
  refine ⟨rfl, ?_, ?_⟩
  · induction cfgs with
    | nil => rfl
    | cons c rest ih =>
      rw [freshChain_cons, nrep.eq_def]
      cases hrf : freshChain rest with
      | nil => simp
      | cons q qs =>
        rw [hrf] at ih
        simp [ih]
  · intro q hq
    simp only [freshChain, List.mem_map] at hq
    obtain ⟨c, hc, rfl⟩ := hq
    exact ⟨rfl, rfl⟩

/-- C4: for fan-out at least 2 and rotation amount at least 1 with the
block size dividing the slot count, the masks of generate_masks sum
slot-wise to the all-ones vector and the product of two distinct masks
vanishes on every slot. -/
theorem replication_masks_partition_unity (S f r : ℕ) (hf : 2 ≤ f) (hr : 1 ≤ r)
    (hdvd : f * r ∣ S) :
    (∀ j, j < S → ∑ i ∈ Finset.range f, maskVal S f r i j = 1) ∧
    (∀ i1, i1 < f → ∀ i2, i2 < f → i1 ≠ i2 → ∀ j,
      maskVal S f r i1 j * maskVal S f r i2 j = 0) := by
  constructor
  · intro j hj
    have hmv : ∀ i ∈ Finset.range f, maskVal S f r i j
        = if j / r % f = i then 1 else 0 := by
      intro i hi
      rw [maskVal_eq_indicator S f r hdvd hr i (Finset.mem_range.mp hi) j]
      simp [hj]
    rw [Finset.sum_congr rfl hmv, Finset.sum_ite_eq,
      if_pos (Finset.mem_range.mpr (Nat.mod_lt _ (by omega)))]
  · intro i1 h1 i2 h2 hne j
    rw [maskVal_eq_indicator S f r hdvd hr i1 h1 j,
      maskVal_eq_indicator S f r hdvd hr i2 h2 j]
    by_cases hc1 : j < S ∧ j / r % f = i1
    · rw [if_pos hc1, if_neg (by rintro ⟨-, h⟩; exact hne (hc1.2.symm.trans h))]
      ring
    · rw [if_neg hc1]
      ring

/-- C4 witness: slot count 8, fan-out 4, rotation amount 2. -/
theorem replication_masks_partition_unity_witness :
    (2 ≤ 4) ∧ (1 ≤ 2) ∧ ((4 * 2) ∣ 8) ∧
    ((∀ j, j < 8 → ∑ i ∈ Finset.range 4, maskVal 8 4 2 i j = 1) ∧
     (∀ i1, i1 < 4 → ∀ i2, i2 < 4 → i1 ≠ i2 → ∀ j,
       maskVal 8 4 2 i1 j * maskVal 8 4 2 i2 j = 0)) := by
  refine ⟨by decide, by decide, by decide, ?_⟩
  exact replication_masks_partition_unity 8 4 2 (by decide) (by decide) (by decide)

theorem installAmounts_eq (d rt : ℕ) :
    installAmounts ⟨d, rt⟩
      = (List.range (d - 1)).map (fun i => -(((i + 1) * rt : ℕ) : ℤ)) := by
  unfold installAmounts
  by_cases h2 : d = 2
  · subst h2
    simp [List.range_succ]
  · simp [h2]

theorem buildCfgs_amounts_mem : ∀ (ds : List ℕ) (rot : ℕ) (a : ℤ),
    a ∈ (buildCfgs rot ds).flatMap installAmounts ↔ a ∈ graLoop rot ds := by
  intro ds
  induction ds with
  | nil => intro rot a; simp [buildCfgs, graLoop]
  | cons d rest ih =>
    intro rot a
    show a ∈ (buildCfgs (rot / d) rest ++ [NodeCfg.mk d (rot / d)]).flatMap installAmounts ↔
      a ∈ ((List.range (d - 1)).map (fun i => -(((i + 1) * (rot / d) : ℕ) : ℤ)))
        ++ graLoop (rot / d) rest
    rw [List.flatMap_append, List.mem_append, List.mem_append]
    have hsing : ([NodeCfg.mk d (rot / d)] : List NodeCfg).flatMap installAmounts
        = installAmounts (NodeCfg.mk d (rot / d)) := by
      simp
    rw [hsing, installAmounts_eq]
    constructor
    · rintro (h | h)
      · exact Or.inr ((ih _ a).mp h)
      · exact Or.inl h
    · rintro (h | h)
      · exact Or.inr h
      · exact Or.inl ((ih _ a).mpr h)

/-- C5: for every valid replicator configuration, the set of rotation
amounts requested from the backend over a complete run (the amounts
passed to EvalRotate or EvalFastRotation by install_source, over all
nodes of the constructed tree) is exactly the set returned by the
static helper DFSSlotReplicator::get_rotation_amounts. -/
theorem rotation_amounts_match_runtime (S : ℕ) (ds : List ℕ) (rho : ℕ)
    (hds : ∀ d ∈ ds, 2 ≤ d) (hrho : 1 ≤ rho) (hprod : rho * ds.prod = S) :
    ∀ a : ℤ, a ∈ (buildCfgs (S / rho) ds).flatMap installAmounts ↔
      a ∈ getRotationAmounts ds := by
  have hP : S / rho = ds.prod := by
    rw [← hprod, Nat.mul_div_cancel_left _ (by omega)]
  intro a
  rw [hP]
  exact buildCfgs_amounts_mem ds ds.prod a

/-- C5 witness: degrees [2, 2] with no input replication on 4 slots. -/
theorem rotation_amounts_match_runtime_witness :
    (∀ d ∈ ([2, 2] : List ℕ), 2 ≤ d) ∧ (1 ≤ 1) ∧ (1 * ([2, 2] : List ℕ).prod = 4) ∧
    (∀ a : ℤ, a ∈ (buildCfgs (4 / 1) [2, 2]).flatMap installAmounts ↔
      a ∈ getRotationAmounts [2, 2]) := by
  refine ⟨by decide, by decide, by decide, ?_⟩
  exact rotation_amounts_match_runtime 4 [2, 2] 1 (by decide) (by decide) (by decide)

theorem le_foldl_max : ∀ (l : List ℤ) (a : ℤ), a ≤ l.foldl max a := by
  intro l
  induction l with
  | nil => intro a; simp
  | cons x xs ih => intro a; exact le_trans (le_max_left a x) (ih (max a x))

/-- C8: for a non-empty degree list, DFSSlotReplicator construction
succeeds exactly when every degree is at least 2, the input replication
is at least 1 and divides the slot count, and the replication times the
degree product equals the slot count; otherwise one of the constructor
checks throws.  The empty degree list is excluded because the source
dereferences the end iterator of max_element on it, which is undefined
behaviour. -/
theorem dfs_ctor_succeeds_iff (S : ℕ) (ds : List ℤ) (rho : ℤ) (hne : ds ≠ []) :
    dfsCtorOk S ds rho = true ↔
      ((∀ d ∈ ds, 2 ≤ d) ∧ 1 ≤ rho ∧ rho ∣ (S : ℤ) ∧ rho * ds.prod = (S : ℤ)) := by
  cases ds with
  | nil => exact absurd rfl hne
  | cons d0 rest =>
    unfold dfsCtorOk
    simp only [Bool.and_eq_true, decide_eq_true_eq, List.all_eq_true, decide_eq_true_eq]
    constructor
    · rintro ⟨⟨⟨⟨h1, h2⟩, h3⟩, h4⟩, h5⟩
      exact ⟨fun d hd => h5 d hd, by omega, Int.dvd_iff_emod_eq_zero.mpr h2, h4.symm⟩
    · rintro ⟨hall, h1, h2, h3⟩
      have hd0 : 2 ≤ d0 := hall d0 (by simp)
      have hfold : d0 ≤ rest.foldl max d0 := le_foldl_max rest d0
      exact ⟨⟨⟨⟨by omega, Int.dvd_iff_emod_eq_zero.mp h2⟩, by omega⟩, h3.symm⟩,
        fun d hd => hall d hd⟩

/-- C8 witness: slot count 8, degrees [2, 2], input replication 2. -/
theorem dfs_ctor_succeeds_iff_witness :
    (([2, 2] : List ℤ) ≠ []) ∧
    (dfsCtorOk 8 [2, 2] 2 = true ↔
      ((∀ d ∈ ([2, 2] : List ℤ), 2 ≤ d) ∧ 1 ≤ (2 : ℤ) ∧ (2 : ℤ) ∣ ((8 : ℕ) : ℤ) ∧
        (2 : ℤ) * ([2, 2] : List ℤ).prod = ((8 : ℕ) : ℤ))) := by
  exact ⟨by decide, dfs_ctor_succeeds_iff 8 [2, 2] 2 (by decide)⟩

/-- C9 counterexample: launched with no command line argument, a
surfaced failure by any reading, the server prints usage and returns 0
from main, so the process exit code is 0 and not nonzero as the claim
requires. -/
theorem server_missing_args_exit_zero :
    serverExitCode [] (Except.error ()) = 0 := rfl

/-- C9 amended: the server exits 0 on success and also 0 on the usage
path taken for a missing or non-numeric first argument; it exits
nonzero exactly when the run proceeds past argument parsing and a
failure surfaces as an exception. -/
theorem server_exit_code_spec (args : List String) (pipeline : Except Unit Unit) :
    serverExitCode args pipeline ≠ 0 ↔
      ((∃ z b, parseServerArgs args = ServerStart.run z b) ∧
        pipeline = Except.error ()) := by
  unfold serverExitCode
  cases hp : parseServerArgs args with
  | usage => simp
  | run z b =>
    cases pipeline with
    | ok u => cases u; simp
    | error e => cases e; simp

/-! Running sums: logarithm and parameter evaluation. -/

theorem flog2Aux_eq_log2 : ∀ (fuel n : ℕ), n ≤ fuel → flog2Aux fuel n = Nat.log2 n := by
  intro fuel
  induction fuel with
  | zero =>
    intro n h
    have hn : n = 0 := by omega
    subst hn
    simp [flog2Aux, Nat.log2]
  | succ fuel ih =>
    intro n h
    rw [flog2Aux]
    by_cases h1 : n ≤ 1
    · rw [if_pos h1]
      conv_rhs => rw [Nat.log2]
      rw [if_neg (by omega)]
    · rw [if_neg h1, ih (n / 2) (by omega)]
      conv_rhs => rw [Nat.log2]
      rw [if_pos (by omega)]

theorem flog2_eq_log2 (n : ℕ) : flog2 n = Nat.log2 n :=
  flog2Aux_eq_log2 n n (le_refl n)

theorem flog2_two_pow (k : ℕ) : flog2 (2 ^ k) = k := by
  rw [flog2_eq_log2]
  exact Nat.log2_two_pow

theorem rsParams_eval (S stride es : ℕ) (d : ℤ) (hS : S = 2 ^ es)
    (hdvd : stride ∣ S) (hstr1 : 1 ≤ stride) (hlt : stride < S) :
    ∃ D : ℕ, 1 ≤ D ∧ S / stride = 2 ^ D ∧
      rsParams S stride d =
        some (2 ^ D, 2 ^ ((D + (if d ≤ 0 ∨ (D : ℤ) < d then D else d.toNat) - 1)
          / (if d ≤ 0 ∨ (D : ℤ) < d then D else d.toNat))) := by
  obtain ⟨i, hie, hstr⟩ : ∃ i, i ≤ es ∧ stride = 2 ^ i := by
    have hdvd2 : stride ∣ 2 ^ es := by rw [← hS]; exact hdvd
    obtain ⟨i, hi, he⟩ := (Nat.dvd_prime_pow Nat.prime_two).mp hdvd2
    exact ⟨i, hi, he⟩
  have hilt : i < es := by
    rcases Nat.lt_or_ge i es with h | h
    · exact h
    · have hieq : i = es := by omega
      rw [hieq, ← hS] at hstr
      omega
  have hn : S / stride = 2 ^ (es - i) := by
    rw [hS, hstr, Nat.pow_div (by omega) (by omega)]
  set D := es - i with hD
  have hD1 : 1 ≤ D := by omega
  have hflog : flog2 (S / stride) = D := by rw [hn, flog2_two_pow]
  have hpow : S = 2 ^ flog2 S := by
    conv_lhs => rw [hS]
    rw [hS, flog2_two_pow]
  have hmod : S % stride = 0 := Nat.mod_eq_zero_of_dvd hdvd
  refine ⟨D, hD1, hn, ?_⟩
  unfold rsParams
  rw [if_neg (by intro h; exact h hpow), if_neg (by intro h; exact h hmod)]
  simp only [hflog]
  have hdf1 : 1 ≤ (if d ≤ 0 ∨ (D : ℤ) < d then D else d.toNat) := by
    by_cases hc : d ≤ 0 ∨ (D : ℤ) < d
    · rw [if_pos hc]; exact hD1
    · rw [if_neg hc]
      push_neg at hc
      omega
  rw [if_neg (by omega), hn]

theorem rsKeysOf_ctorLoop (S stride factor : ℕ) : ∀ (fuel n : ℕ),
    rsKeysOf (rsCtorLoop S stride factor fuel n) = rsStaticLoop stride factor fuel n := by
  intro fuel
  induction fuel with
  | zero => intro n; rfl
  | succ fuel ih =>
    intro n
    rw [rsCtorLoop, rsStaticLoop]
    by_cases h1 : factor < n
    · rw [if_pos h1, if_pos h1]
      show ((List.range (factor - 1)).map _ :: rsCtorLoop S stride factor fuel (n / factor)).flatMap
        (fun ph => ph.map Prod.fst) = _
      rw [List.flatMap_cons, List.map_map]
      have hih := ih (n / factor)
      rw [show rsKeysOf (rsCtorLoop S stride factor fuel (n / factor))
          = (rsCtorLoop S stride factor fuel (n / factor)).flatMap (fun ph => ph.map Prod.fst)
          from rfl] at hih
      rw [hih]
      simp [Function.comp]
    · rw [if_neg h1, if_neg h1]
      by_cases h2 : 1 < n
      · rw [if_pos h2, if_pos h2]
        show ((List.range (n - 1)).map _ :: []).flatMap (fun ph => ph.map Prod.fst) = _
        rw [List.flatMap_cons, List.flatMap_nil, List.map_map, List.append_nil]
        simp [Function.comp]
      · rw [if_neg h2, if_neg h2]
        rfl

/-- C6: the set of shift amounts used by eval_in_place at runtime, the
keys of the per-phase mask maps built by the RunningSums constructor as
returned by the instance method get_shift_amounts, is exactly the list
returned by the static RunningSums::get_shift_amounts for the same
parameters; when the constructor fails its checks (or divides by zero
at stride = slot count) the static helper fails identically. -/
theorem shift_amounts_instance_eq_static (S stride : ℕ) (d : ℤ) :
    (rsCtorPhases S stride d).map rsKeysOf = rsStaticShiftAmounts S stride d := by
  unfold rsCtorPhases rsStaticShiftAmounts
  cases hp : rsParams S stride d with
  | none => rfl
  | some p =>
    show some (rsKeysOf (rsCtorLoop S stride p.2 p.1 p.1)) = some (rsStaticLoop stride p.2 p.1 p.1)
    rw [rsKeysOf_ctorLoop]

theorem rsCtorLoop_length_le (S stride factor : ℕ) (hf : 2 ≤ factor) :
    ∀ (k fuel n : ℕ), n ≤ factor ^ k → n ≤ fuel →
      (rsCtorLoop S stride factor fuel n).length ≤ k := by
  intro k
  induction k with
  | zero =>
    intro fuel n hn hfuel
    have hn1 : n ≤ 1 := by simpa using hn
    cases fuel with
    | zero => simp [rsCtorLoop]
    | succ fuel =>
      rw [rsCtorLoop, if_neg (by omega), if_neg (by omega)]
      simp
  | succ k ih =>
    intro fuel n hn hfuel
    cases fuel with
    | zero => simp [rsCtorLoop]
    | succ fuel =>
      by_cases h1 : factor < n
      · have hn' : n / factor ≤ factor ^ k := by
          calc n / factor ≤ factor ^ (k + 1) / factor := Nat.div_le_div_right hn
            _ = factor ^ k := by rw [pow_succ, Nat.mul_div_cancel _ (by omega)]
        have hfuel' : n / factor ≤ fuel := by
          have := Nat.div_lt_self (show 0 < n by omega) (show 1 < factor by omega)
          omega
        rw [rsCtorLoop, if_pos h1]
        have := ih fuel (n / factor) hn' hfuel'
        simp only [List.length_cons]
        omega
      · rw [rsCtorLoop, if_neg h1]
        by_cases h2 : 1 < n
        · rw [if_pos h2]
          simp
        · rw [if_neg h2]
          simp

/-- C7 amended: for a power-of-two slot count, a stride properly
dividing it, and a positive depth budget, the number of mask phases
built by the RunningSums constructor, each costing one plaintext
multiplication per output in eval_in_place, is at most the minimum of
the depth budget and log2 of the interval count.  A nonpositive budget
means unlimited depth in the source (it is replaced by the logarithm),
and stride equal to the slot count makes the constructor divide by
zero, so both are excluded. -/
theorem phase_count_within_depth_budget (S stride es : ℕ) (d : ℤ)
    (hS : S = 2 ^ es) (hdvd : stride ∣ S) (hstr1 : 1 ≤ stride) (hlt : stride < S)
    (hd : 1 ≤ d) :
    ∃ phases, rsCtorPhases S stride d = some phases ∧
      (phases.length : ℤ) ≤ min d (flog2 (S / stride) : ℤ) := by
  obtain ⟨D, hD1, hn, hparams⟩ := rsParams_eval S stride es d hS hdvd hstr1 hlt
  set df := (if d ≤ 0 ∨ (D : ℤ) < d then D else d.toNat) with hdf
  have hdfb : 1 ≤ df ∧ df ≤ D := by
    by_cases hc : d ≤ 0 ∨ (D : ℤ) < d
    · rw [hdf, if_pos hc]; omega
    · rw [hdf, if_neg hc]; push_neg at hc; omega
  set eF := (D + df - 1) / df with heF
  have heF1 : 1 ≤ eF := by
    rw [heF, Nat.le_div_iff_mul_le (by omega)]
    omega
  set K := min d.toNat D with hK
  have hDle : D ≤ eF * K := by
    by_cases hc : (D : ℤ) < d
    · have hdfD : df = D := by rw [hdf, if_pos (Or.inr hc)]
      have heFv : eF = 1 := by
        rw [heF, hdfD]
        apply Nat.div_eq_of_lt_le <;> omega
      have hKD : K = D := by rw [hK]; omega
      rw [heFv, hKD]; omega
    · push_neg at hc
      have hdfd : df = d.toNat := by
        rw [hdf, if_neg (by push_neg; constructor <;> omega)]
      have hKd : K = d.toNat := by rw [hK]; omega
      have e := Nat.div_add_mod (D + d.toNat - 1) d.toNat
      have hm : (D + d.toNat - 1) % d.toNat < d.toNat := Nat.mod_lt _ (by omega)
      rw [hKd, heF, hdfd, mul_comm]
      omega
  have hbound : 2 ^ D ≤ (2 ^ eF) ^ K := by
    rw [← pow_mul]
    exact Nat.pow_le_pow_right (by omega) hDle
  have hfac2 : 2 ≤ 2 ^ eF := by
    have h4 : 2 ^ 1 ≤ 2 ^ eF := Nat.pow_le_pow_right (by omega) heF1
    simpa using h4
  have hlen := rsCtorLoop_length_le S stride (2 ^ eF) hfac2 K (2 ^ D) (2 ^ D)
    hbound (le_refl _)
  refine ⟨rsCtorLoop S stride (2 ^ eF) (2 ^ D) (2 ^ D), ?_, ?_⟩
  · unfold rsCtorPhases
    rw [hparams]
    rfl
  · have hflog : flog2 (S / stride) = D := by rw [hn, flog2_two_pow]
    rw [hflog]
    omega

/-- C7 counterexample: at slot count 8, stride 1 and depth budget 0,
the documented default, the constructor builds three phases while the
claim as stated bounds them by min(0, 3) = 0. -/
theorem phase_count_exceeds_budget_zero :
    (rsCtorPhases 8 1 0).map List.length = some 3 ∧
    ¬((3 : ℤ) ≤ min 0 (flog2 (8 / 1) : ℤ)) := by
  constructor
  · rfl
  · decide

/-- C7 witness: slot count 16, stride 2, depth budget 2; the two phases
built respect the bound min(2, 3). -/
theorem phase_count_within_depth_budget_witness :
    ((16 : ℕ) = 2 ^ 4) ∧ ((2 : ℕ) ∣ 16) ∧ ((1 : ℕ) ≤ 2) ∧ ((2 : ℕ) < 16) ∧
    ((1 : ℤ) ≤ 2) ∧
    (∃ phases, rsCtorPhases 16 2 2 = some phases ∧
      (phases.length : ℤ) ≤ min 2 (flog2 (16 / 2) : ℤ)) := by
  refine ⟨by decide, by decide, by decide, by decide, by decide, ?_⟩
  exact phase_count_within_depth_budget 16 2 4 2 (by decide) (by decide) (by decide)
    (by decide) (by decide)

/-! Running sums: evaluation semantics. -/

theorem map_getD_lt {α β : Type} (l : List α) (g : α → β) (k : ℕ) (z : α) (z' : β)
    (h : k < l.length) : (l.map g).getD k z' = g (l.getD k z) := by
  rw [List.getD_eq_getElem (l.map g) z' (by simpa using h),
    List.getD_eq_getElem l z h, List.getElem_map]

theorem getLastD_eq_getD (cs : List Vec) :
    cs.getLast?.getD zeroVec = cs.getD (cs.length - 1) zeroVec := by
  rw [List.getLast?_eq_getElem?, List.getD_eq_getElem?_getD]

theorem rotMask_term (S b s : ℕ) (back : Vec) (hb : b < S) (hs : s < S) :
    evalRotate S back (-((b : ℕ) : ℤ)) s * mask4shift S ((b : ℕ) : ℤ) s
      = if b ≤ s then back (s - b) else 0 := by
  have hmask : mask4shift S ((b : ℕ) : ℤ) s = if b ≤ s then 1 else 0 := by
    unfold mask4shift
    have htn : (((b : ℕ) : ℤ) % (S : ℤ)).toNat = b := by
      rw [← Int.natCast_mod, Int.toNat_natCast, Nat.mod_eq_of_lt hb]
    rw [htn]
    by_cases hbs : b ≤ s
    · rw [if_pos ⟨hbs, hs⟩, if_pos hbs]
    · rw [if_neg (by tauto), if_neg hbs]
  rw [hmask]
  by_cases hbs : b ≤ s
  · rw [if_pos hbs, if_pos hbs, mul_one,
      evalRotate_neg_nat S back b s (by omega)]
    have he : s + (S - b) = (s - b) + S := by omega
    rw [he, Nat.add_mod_right, Nat.mod_eq_of_lt (by omega)]
  · rw [if_neg hbs, if_neg hbs, mul_zero]

theorem phaseAcc_eval (S a m : ℕ) (back : Vec) (hm : 1 ≤ m) (ha : a * (m - 1) < S)
    (s : ℕ) (hs : s < S) :
    phaseAcc S back ((List.range (m - 1)).map (fun j => (-((a * (m - 1 - j) : ℕ) : ℤ),
        mask4shift S ((a * (m - 1 - j) : ℕ) : ℤ)))) s
      = ∑ i ∈ Finset.range m, if 1 ≤ i ∧ a * i ≤ s then back (s - a * i) else 0 := by
  unfold phaseAcc
  rw [List.map_map, listSum_range_eq]
  have hstep1 : ∑ j ∈ Finset.range (m - 1),
      ((fun km : ℤ × Vec => evalRotate S back km.1 s * km.2 s) ∘
        (fun j => (-((a * (m - 1 - j) : ℕ) : ℤ), mask4shift S ((a * (m - 1 - j) : ℕ) : ℤ)))) j
      = ∑ j ∈ Finset.range (m - 1),
        (fun x => if a * (x + 1) ≤ s then back (s - a * (x + 1)) else 0) (m - 1 - 1 - j) := by
    refine Finset.sum_congr rfl ?_
    intro j hj
    have hjm : j < m - 1 := Finset.mem_range.mp hj
    have hb : a * (m - 1 - j) < S :=
      lt_of_le_of_lt (Nat.mul_le_mul_left a (by omega)) ha
    have he : m - 1 - 1 - j + 1 = m - 1 - j := by omega
    simp only [Function.comp]
    rw [rotMask_term S (a * (m - 1 - j)) s back hb hs, he]
  have hrefl := Finset.sum_range_reflect
    (fun x => if a * (x + 1) ≤ s then back (s - a * (x + 1)) else 0) (m - 1)
  rw [hstep1, hrefl]
  have hm1 : m = (m - 1) + 1 := by omega
  conv_rhs => rw [hm1, Finset.sum_range_succ']
  have hz : (if 1 ≤ (0 : ℕ) ∧ a * 0 ≤ s then back (s - a * 0) else 0) = 0 := by
    rw [if_neg (by omega)]
  rw [hz, add_zero]
  refine Finset.sum_congr rfl ?_
  intro j hj
  show (if a * (j + 1) ≤ s then back (s - a * (j + 1)) else 0)
    = (if 1 ≤ j + 1 ∧ a * (j + 1) ≤ s then back (s - a * (j + 1)) else 0)
  by_cases hc : a * (j + 1) ≤ s
  · rw [if_pos hc, if_pos ⟨by omega, hc⟩]
  · rw [if_neg hc, if_neg (by tauto)]

theorem acrossSumsAux_getD : ∀ (l : List Vec) (acc : Vec) (k : ℕ), k < l.length → ∀ s,
    (acrossSumsAux acc l).getD k zeroVec s = acc s + ((l.take (k + 1)).map (fun c => c s)).sum := by
  intro l
  induction l with
  | nil => intro acc k hk; simp at hk
  | cons c rest ih =>
    intro acc k hk s
    cases k with
    | zero => simp [acrossSumsAux, vAdd]
    | succ k =>
      show (acrossSumsAux (vAdd acc c) rest).getD k zeroVec s = _
      rw [ih (vAdd acc c) k (by simpa using hk) s]
      simp [vAdd]
      ring

theorem acrossSums_length (cts : List Vec) : (acrossSums cts).length = cts.length := by
  cases cts with
  | nil => rfl
  | cons c rest =>
    show ((c :: acrossSumsAux c rest) : List Vec).length = _
    have : ∀ (l : List Vec) (acc : Vec), (acrossSumsAux acc l).length = l.length := by
      intro l
      induction l with
      | nil => intro acc; rfl
      | cons x xs ih => intro acc; simp [acrossSumsAux, ih]
    simp [this]

theorem acrossSums_getD : ∀ (cts : List Vec) (k : ℕ), k < cts.length → ∀ s,
    (acrossSums cts).getD k zeroVec s = ((cts.take (k + 1)).map (fun c => c s)).sum := by
  intro cts
  cases cts with
  | nil => intro k hk; simp at hk
  | cons c rest =>
    intro k hk s
    cases k with
    | zero => simp [acrossSums]
    | succ k =>
      show (acrossSumsAux c rest).getD k zeroVec s = _
      rw [acrossSumsAux_getD rest c k (by simpa using hk) s]
      simp

theorem take_map_sum : ∀ (cts : List Vec) (n : ℕ) (s : ℕ), n ≤ cts.length →
    ((cts.take n).map (fun c => c s)).sum = ∑ i ∈ Finset.range n, cts.getD i zeroVec s := by
  intro cts
  induction cts with
  | nil =>
    intro n s hn
    have : n = 0 := by simpa using hn
    subst this
    simp
  | cons c rest ih =>
    intro n s hn
    cases n with
    | zero => simp
    | succ n =>
      rw [List.take_succ_cons, List.map_cons, List.sum_cons,
        ih n s (by simpa using hn), Finset.sum_range_succ']
      simp [List.getD_cons_succ, List.getD_cons_zero]
      ring

theorem interV_eq_range (cts : List Vec) (k s : ℕ) (hk : k < cts.length) :
    interV cts k s = ∑ i ∈ Finset.range (k + 1), cts.getD i zeroVec s := by
  have hsub : Finset.range (k + 1) ⊆ Finset.range cts.length :=
    Finset.range_subset.mpr (by omega)
  have hzero : ∀ i ∈ Finset.range cts.length, i ∉ Finset.range (k + 1) →
      (if i ≤ k then cts.getD i zeroVec s else 0) = 0 := by
    intro i hi hni
    rw [if_neg]
    intro hik
    exact hni (Finset.mem_range.mpr (by omega))
  calc interV cts k s
      = ∑ i ∈ Finset.range (k + 1), (if i ≤ k then cts.getD i zeroVec s else 0) :=
        (Finset.sum_subset hsub hzero).symm
    _ = ∑ i ∈ Finset.range (k + 1), cts.getD i zeroVec s := by
        refine Finset.sum_congr rfl ?_
        intro i hi
        rw [if_pos (by have := Finset.mem_range.mp hi; omega)]

theorem interV_getD_across (cts : List Vec) (k : ℕ) (hk : k < cts.length) (s : ℕ) :
    (acrossSums cts).getD k zeroVec s = interV cts k s := by
  rw [acrossSums_getD cts k hk s, take_map_sum cts (k + 1) s (by omega),
    interV_eq_range cts k s hk]

theorem interV_last (cts : List Vec) (stride s : ℕ) :
    interV cts (cts.length - 1) s = Urow cts stride (s / stride) (s % stride) := by
  unfold interV Urow
  refine Finset.sum_congr rfl ?_
  intro i hi
  rw [if_pos (by have := Finset.mem_range.mp hi; omega)]
  have hsm : s / stride * stride + s % stride = s := Nat.div_add_mod' s stride
  rw [hsm]

theorem Dstrict_at_N (cts : List Vec) (stride N s : ℕ) (hs : s / stride < N) :
    Dstrict cts stride N N s = 0 := by
  unfold Dstrict
  refine Finset.sum_eq_zero ?_
  intro u hu
  rw [if_neg]
  rintro ⟨h1, h2⟩
  have h3 : 0 < s / stride - u := by omega
  have h4 : s / stride - u < N := by omega
  have := Nat.le_of_dvd h3 h2
  omega

theorem sum_le_add_strict (cts : List Vec) (stride N n : ℕ) (t c : ℕ) (ht : t < N) :
    (∑ u ∈ Finset.range N, if u ≤ t ∧ n ∣ (t - u) then Urow cts stride u c else 0)
      = Urow cts stride t c
        + ∑ u ∈ Finset.range N, if u < t ∧ n ∣ (t - u) then Urow cts stride u c else 0 := by
  have hsplit : ∀ u ∈ Finset.range N,
      (if u ≤ t ∧ n ∣ (t - u) then Urow cts stride u c else 0)
      = (if u = t then Urow cts stride u c else 0)
        + (if u < t ∧ n ∣ (t - u) then Urow cts stride u c else 0) := by
    intro u _
    by_cases he : u = t
    · subst he
      rw [if_pos ⟨le_refl u, by simp⟩, if_pos rfl, if_neg (by omega)]
      ring
    · rw [if_neg he]
      by_cases hlt : u < t ∧ n ∣ (t - u)
      · rw [if_pos ⟨by omega, hlt.2⟩, if_pos hlt]
        ring
      · rw [if_neg hlt, if_neg (by rintro ⟨hle, hdv⟩; exact hlt ⟨by omega, hdv⟩)]
        ring
  rw [Finset.sum_congr rfl hsplit, Finset.sum_add_distrib]
  congr 1
  rw [Finset.sum_ite_eq' (Finset.range N) t (fun u => Urow cts stride u c),
    if_pos (Finset.mem_range.mpr ht)]

theorem G_split_core (W : ℕ → ℚ) (N np m t : ℕ) (hm : 1 ≤ m) (hnp : 1 ≤ np) :
    ∑ i ∈ Finset.range m, (if np * i ≤ t then
      ∑ u ∈ Finset.range N, (if u ≤ t - np * i ∧ (np * m) ∣ (t - np * i - u) then W u else 0)
      else 0)
    = ∑ u ∈ Finset.range N, (if u ≤ t ∧ np ∣ (t - u) then W u else 0) := by
  have hpush : ∀ i ∈ Finset.range m, (if np * i ≤ t then
      ∑ u ∈ Finset.range N, (if u ≤ t - np * i ∧ (np * m) ∣ (t - np * i - u) then W u else 0)
      else 0)
      = ∑ u ∈ Finset.range N, (if np * i ≤ t ∧ u ≤ t - np * i ∧ (np * m) ∣ (t - np * i - u)
          then W u else 0) := by
    intro i _
    by_cases hc : np * i ≤ t
    · rw [if_pos hc]
      refine Finset.sum_congr rfl ?_
      intro u _
      by_cases h2 : u ≤ t - np * i ∧ (np * m) ∣ (t - np * i - u)
      · rw [if_pos h2, if_pos ⟨hc, h2.1, h2.2⟩]
      · rw [if_neg h2, if_neg (by tauto)]
    · rw [if_neg hc]
      symm
      refine Finset.sum_eq_zero ?_
      intro u _
      rw [if_neg (by tauto)]
  rw [Finset.sum_congr rfl hpush, Finset.sum_comm]
  refine Finset.sum_congr rfl ?_
  intro u _
  by_cases hmain : u ≤ t ∧ np ∣ (t - u)
  · obtain ⟨hut, hdvd⟩ := hmain
    obtain ⟨e, he⟩ := hdvd
    have hem : e % m < m := Nat.mod_lt _ (by omega)
    have hle1 : np * (e % m) ≤ np * e := Nat.mul_le_mul_left np (Nat.mod_le e m)
    have h9 : e = e % m + m * (e / m) := by
      have := Nat.div_add_mod e m
      omega
    have h8 : np * e = np * (e % m) + np * m * (e / m) := by
      conv_lhs => rw [h9]
      ring
    have h0 : ∀ i ∈ Finset.range m, i ≠ e % m →
        (if np * i ≤ t ∧ u ≤ t - np * i ∧ (np * m) ∣ (t - np * i - u)
          then W u else 0) = 0 := by
      intro i hi hne
      rw [if_neg]
      rintro ⟨h1, h2, h3⟩
      obtain ⟨qq, hqq⟩ := h3
      have him : i < m := Finset.mem_range.mp hi
      have h4 : np * i ≤ t - u := by omega
      have h5 : t - np * i - u = np * e - np * i := by omega
      have h6 : np * e = np * i + np * m * qq := by omega
      have h7 : e = i + m * qq := by
        have h8b : np * e = np * (i + m * qq) := by
          rw [h6]
          ring
        exact Nat.eq_of_mul_eq_mul_left (by omega) h8b
      refine hne ?_
      rw [h7, Nat.add_mul_mod_self_left, Nat.mod_eq_of_lt him]
    have h1 : e % m ∉ Finset.range m →
        (if np * (e % m) ≤ t ∧ u ≤ t - np * (e % m) ∧ (np * m) ∣ (t - np * (e % m) - u)
          then W u else 0) = 0 :=
      fun habs => absurd (Finset.mem_range.mpr hem) habs
    rw [Finset.sum_eq_single (e % m) h0 h1, if_pos ⟨by omega, by omega, e / m, by omega⟩,
      if_pos ⟨hut, e, he⟩]
  · rw [if_neg hmain]
    refine Finset.sum_eq_zero ?_
    intro i _
    rw [if_neg]
    rintro ⟨h1, h2, h3⟩
    obtain ⟨qq, hqq⟩ := h3
    refine hmain ⟨by omega, i + m * qq, ?_⟩
    have h5 : np * (i + m * qq) = np * i + np * m * qq := by ring
    omega

theorem Gmod_eq_add (cts : List Vec) (stride N n s : ℕ) (ht : s / stride < N) :
    Gmod cts stride N n (s / stride) (s % stride)
      = Urow cts stride (s / stride) (s % stride) + Dstrict cts stride N n s := by
  unfold Gmod Dstrict
  exact sum_le_add_strict cts stride N n (s / stride) (s % stride) ht

theorem phase_step (cts : List Vec) (S stride N n np m a : ℕ)
    (hS : S = stride * N) (hstr : 1 ≤ stride) (hn : n = np * m) (hnN : n ≤ N)
    (hm : 1 ≤ m) (hnp : 1 ≤ np) (ha : a = stride * np)
    (cs : List Vec) (hlen : cs.length = cts.length) (hB : 1 ≤ cts.length)
    (hinv : ∀ k, k < cts.length → ∀ s, s < S →
      cs.getD k zeroVec s = interV cts k s + Dstrict cts stride N n s) :
    ∀ k, k < cts.length → ∀ s, s < S →
      (cs.map (fun c => vAdd c (phaseAcc S (cs.getLast?.getD zeroVec)
          ((List.range (m - 1)).map (fun j => (-((a * (m - 1 - j) : ℕ) : ℤ),
            mask4shift S ((a * (m - 1 - j) : ℕ) : ℤ))))))).getD k zeroVec s
        = interV cts k s + Dstrict cts stride N np s := by
  intro k hk s hs
  have hup : a * (m - 1) < S := by
    have h2 : np * m = np * (m - 1) + np := by
      conv_lhs => rw [show m = (m - 1) + 1 by omega]
      ring
    have h1 : np * (m - 1) < N := by omega
    calc a * (m - 1) = stride * (np * (m - 1)) := by rw [ha]; ring
      _ < stride * N := mul_lt_mul_of_pos_left h1 (by omega)
      _ = S := hS.symm
  rw [map_getD_lt cs _ k zeroVec zeroVec (by omega)]
  show cs.getD k zeroVec s + phaseAcc S (cs.getLast?.getD zeroVec)
      ((List.range (m - 1)).map (fun j => (-((a * (m - 1 - j) : ℕ) : ℤ),
        mask4shift S ((a * (m - 1 - j) : ℕ) : ℤ)))) s
    = interV cts k s + Dstrict cts stride N np s
  rw [hinv k hk s hs,
    phaseAcc_eval S a m (cs.getLast?.getD zeroVec) hm hup s hs]
  have ht : s / stride < N := Nat.div_lt_of_lt_mul (by omega)
  have hback : ∀ u, u < S → (cs.getLast?.getD zeroVec) u
      = Gmod cts stride N n (u / stride) (u % stride) := by
    intro u hu
    have htu : u / stride < N := Nat.div_lt_of_lt_mul (by omega)
    have h1 : cs.getLast?.getD zeroVec = cs.getD (cs.length - 1) zeroVec :=
      getLastD_eq_getD cs
    have h2 : cs.length - 1 = cts.length - 1 := by omega
    rw [h1, h2, hinv (cts.length - 1) (by omega) u hu, interV_last cts stride u,
      Gmod_eq_add cts stride N n u htu]
  have hsum : (∑ i ∈ Finset.range m, if 1 ≤ i ∧ a * i ≤ s
      then (cs.getLast?.getD zeroVec) (s - a * i) else 0)
      = ∑ i ∈ Finset.range m, if 1 ≤ i ∧ np * i ≤ s / stride
        then Gmod cts stride N n (s / stride - np * i) (s % stride) else 0 := by
    refine Finset.sum_congr rfl ?_
    intro i _
    have hai : a * i = np * i * stride := by rw [ha]; ring
    have hdm : s / stride * stride + s % stride = s := Nat.div_add_mod' s stride
    by_cases hc1 : 1 ≤ i ∧ a * i ≤ s
    · have hii : np * i ≤ s / stride := by
        rw [Nat.le_div_iff_mul_le (show 0 < stride by omega)]
        omega
      have h3 : np * i * stride ≤ s / stride * stride := Nat.mul_le_mul_right stride hii
      have he1 : s - a * i = s % stride + (s / stride - np * i) * stride := by
        rw [Nat.sub_mul]
        omega
      have he2 : (s - a * i) / stride = s / stride - np * i := by
        rw [he1, Nat.add_mul_div_right _ _ (show 0 < stride by omega),
          Nat.div_eq_of_lt (Nat.mod_lt s (by omega)), zero_add]
      have he3 : (s - a * i) % stride = s % stride := by
        rw [he1, Nat.add_mul_mod_self_right, Nat.mod_mod_of_dvd s (dvd_refl stride)]
      rw [if_pos hc1, if_pos ⟨hc1.1, hii⟩, hback (s - a * i) (by omega), he2, he3]
    · rw [if_neg hc1, if_neg]
      rintro ⟨h1, h2⟩
      refine hc1 ⟨h1, ?_⟩
      have h3 := (Nat.le_div_iff_mul_le (show 0 < stride by omega)).mp h2
      omega
  rw [hsum]
  have hGmodL : ∀ i, (if np * i ≤ s / stride
      then Gmod cts stride N n (s / stride - np * i) (s % stride) else 0)
      = (if np * i ≤ s / stride then
        ∑ u ∈ Finset.range N, (if u ≤ s / stride - np * i ∧
          (np * m) ∣ (s / stride - np * i - u)
          then Urow cts stride u (s % stride) else 0) else 0) := by
    intro i
    by_cases hc : np * i ≤ s / stride
    · rw [if_pos hc, if_pos hc]
      unfold Gmod
      rw [hn]
    · rw [if_neg hc, if_neg hc]
  have hG2 : (∑ i ∈ Finset.range m, (if np * i ≤ s / stride
      then Gmod cts stride N n (s / stride - np * i) (s % stride) else 0))
      = Gmod cts stride N np (s / stride) (s % stride) := by
    calc (∑ i ∈ Finset.range m, (if np * i ≤ s / stride
          then Gmod cts stride N n (s / stride - np * i) (s % stride) else 0))
        = ∑ i ∈ Finset.range m, (if np * i ≤ s / stride then
            ∑ u ∈ Finset.range N, (if u ≤ s / stride - np * i ∧
              (np * m) ∣ (s / stride - np * i - u)
              then Urow cts stride u (s % stride) else 0) else 0) :=
          Finset.sum_congr rfl (fun i _ => hGmodL i)
      _ = ∑ u ∈ Finset.range N, (if u ≤ s / stride ∧ np ∣ (s / stride - u)
            then Urow cts stride u (s % stride) else 0) :=
          G_split_core (fun u => Urow cts stride u (s % stride)) N np m (s / stride) hm hnp
      _ = Gmod cts stride N np (s / stride) (s % stride) := rfl
  have hzero : (if np * 0 ≤ s / stride
      then Gmod cts stride N n (s / stride - np * 0) (s % stride) else 0)
      = Gmod cts stride N n (s / stride) (s % stride) := by
    simp
  have hm1 : m = (m - 1) + 1 := by omega
  have hG3 : Gmod cts stride N n (s / stride) (s % stride)
      + (∑ i ∈ Finset.range (m - 1), (if np * (i + 1) ≤ s / stride
          then Gmod cts stride N n (s / stride - np * (i + 1)) (s % stride) else 0))
      = Gmod cts stride N np (s / stride) (s % stride) := by
    rw [← hG2]
    conv_rhs => rw [hm1, Finset.sum_range_succ']
    rw [hzero]
    ring
  have hA : (∑ i ∈ Finset.range m, if 1 ≤ i ∧ np * i ≤ s / stride
      then Gmod cts stride N n (s / stride - np * i) (s % stride) else 0)
      = ∑ i ∈ Finset.range (m - 1), (if np * (i + 1) ≤ s / stride
        then Gmod cts stride N n (s / stride - np * (i + 1)) (s % stride) else 0) := by
    conv_lhs => rw [hm1]
    rw [Finset.sum_range_succ']
    have h0 : (if 1 ≤ (0 : ℕ) ∧ np * 0 ≤ s / stride
        then Gmod cts stride N n (s / stride - np * 0) (s % stride) else 0) = 0 := by
      rw [if_neg (by omega)]
    rw [h0, add_zero]
    refine Finset.sum_congr rfl ?_
    intro j _
    show (if 1 ≤ j + 1 ∧ np * (j + 1) ≤ s / stride
        then Gmod cts stride N n (s / stride - np * (j + 1)) (s % stride) else 0)
      = (if np * (j + 1) ≤ s / stride
        then Gmod cts stride N n (s / stride - np * (j + 1)) (s % stride) else 0)
    by_cases hc : np * (j + 1) ≤ s / stride
    · rw [if_pos ⟨by omega, hc⟩, if_pos hc]
    · rw [if_neg (by tauto), if_neg hc]
  rw [hA]
  have hGn := Gmod_eq_add cts stride N n s ht
  have hGnp := Gmod_eq_add cts stride N np s ht
  linarith [hG3, hGn, hGnp]

theorem rs_fold_inv (cts : List Vec) (S stride N factor eF : ℕ)
    (hS : S = stride * N) (hstr : 1 ≤ stride) (hB : 1 ≤ cts.length)
    (hf : factor = 2 ^ eF) (heF : 1 ≤ eF) :
    ∀ (fuel : ℕ), ∀ (n e : ℕ), n = 2 ^ e → n ≤ N → n ≤ fuel →
    ∀ cs : List Vec, cs.length = cts.length →
    (∀ k, k < cts.length → ∀ s, s < S →
      cs.getD k zeroVec s = interV cts k s + Dstrict cts stride N n s) →
    ((rsCtorLoop S stride factor fuel n).foldl
        (fun cs2 ph => cs2.map (fun c => vAdd c (phaseAcc S (cs2.getLast?.getD zeroVec) ph)))
        cs).length = cts.length ∧
    (∀ k, k < cts.length → ∀ s, s < S →
      ((rsCtorLoop S stride factor fuel n).foldl
        (fun cs2 ph => cs2.map (fun c => vAdd c (phaseAcc S (cs2.getLast?.getD zeroVec) ph)))
        cs).getD k zeroVec s = interV cts k s + Dstrict cts stride N 1 s) := by
  have hf2 : 2 ≤ factor := by
    rw [hf]
    calc 2 = 2 ^ 1 := (pow_one 2).symm
      _ ≤ 2 ^ eF := Nat.pow_le_pow_right (by omega) heF
  intro fuel
  induction fuel with
  | zero =>
    intro n e hn hnN hfuel cs hlen hinv
    have h1 : 0 < n := by rw [hn]; exact Nat.two_pow_pos e
    omega
  | succ fuel ih =>
    intro n e hn hnN hfuel cs hlen hinv
    have hn0 : 0 < n := by rw [hn]; exact Nat.two_pow_pos e
    by_cases h1 : factor < n
    · have h1p : (2 : ℕ) ^ eF < 2 ^ e := by rw [← hf, ← hn]; exact h1
      have hef_lt : eF < e := by
        by_contra hc
        push_neg at hc
        have := Nat.pow_le_pow_right (show 1 ≤ 2 by omega) hc
        omega
      have hdvd : factor ∣ n := by
        rw [hn, hf]
        exact pow_dvd_pow 2 (by omega)
      have hm2 : n / factor = 2 ^ (e - eF) := by
        rw [hn, hf, Nat.pow_div (by omega) (by omega)]
      have hmul : n = (n / factor) * factor := (Nat.div_mul_cancel hdvd).symm
      have hloop : rsCtorLoop S stride factor (fuel + 1) n
          = ((List.range (factor - 1)).map (fun k =>
              (-((stride * (n / factor) * (factor - 1 - k) : ℕ) : ℤ),
                mask4shift S ((stride * (n / factor) * (factor - 1 - k) : ℕ) : ℤ))))
            :: rsCtorLoop S stride factor fuel (n / factor) := by
        rw [rsCtorLoop, if_pos h1]
      rw [hloop, List.foldl_cons]
      have hnN2 : n / factor ≤ N := by
        have := Nat.div_le_self n factor
        omega
      have hfuel2 : n / factor ≤ fuel := by
        have := Nat.div_lt_self hn0 (show 1 < factor by omega)
        omega
      refine ih (n / factor) (e - eF) hm2 hnN2 hfuel2 _ ?_ ?_
      · simp only [List.length_map]
        exact hlen
      · exact phase_step cts S stride N n (n / factor) factor (stride * (n / factor))
          hS hstr hmul hnN (by omega) (by rw [hm2]; exact Nat.two_pow_pos _) rfl
          cs hlen hB hinv
    · by_cases h2 : 1 < n
      · have hloop : rsCtorLoop S stride factor (fuel + 1) n
            = [(List.range (n - 1)).map (fun k =>
                (-((stride * (n - 1 - k) : ℕ) : ℤ),
                  mask4shift S ((stride * (n - 1 - k) : ℕ) : ℤ)))] := by
          rw [rsCtorLoop, if_neg h1, if_pos h2]
        rw [hloop, List.foldl_cons, List.foldl_nil]
        constructor
        · simp only [List.length_map]
          exact hlen
        · exact phase_step cts S stride N n 1 n stride hS hstr (by omega) hnN
            (by omega) (by omega) (by omega) cs hlen hB hinv
      · have hn1 : n = 1 := by omega
        have hloop : rsCtorLoop S stride factor (fuel + 1) n = [] := by
          rw [rsCtorLoop, if_neg h1, if_neg h2]
        rw [hloop, List.foldl_nil]
        refine ⟨hlen, ?_⟩
        intro k hk s hs
        rw [hinv k hk s hs, hn1]

theorem rowcol_le_iff (B t tp k kp : ℕ) (hk : k < B) (hkp : kp < B) :
    tp * B + kp ≤ t * B + k ↔ (tp < t ∨ (tp = t ∧ kp ≤ k)) := by
  constructor
  · intro h
    rcases Nat.lt_trichotomy tp t with h1 | h1 | h1
    · exact Or.inl h1
    · subst h1
      exact Or.inr ⟨rfl, by omega⟩
    · exfalso
      have h2 : (t + 1) * B ≤ tp * B := Nat.mul_le_mul_right B (by omega)
      have h3 : (t + 1) * B = t * B + B := by ring
      omega
  · rintro (h1 | ⟨h1, h2⟩)
    · have h2 : (tp + 1) * B ≤ t * B := Nat.mul_le_mul_right B (by omega)
      have h3 : (tp + 1) * B = tp * B + B := by ring
      omega
    · subst h1
      omega

theorem interV_add_Dstrict_one (cts : List Vec) (stride N : ℕ) (hstr : 1 ≤ stride)
    (k s : ℕ) (hk : k < cts.length) (ht : s / stride < N) :
    interV cts k s + Dstrict cts stride N 1 s
      = ∑ kp ∈ Finset.range cts.length, ∑ tp ∈ Finset.range N,
          if tp * cts.length + kp ≤ s / stride * cts.length + k
          then cts.getD kp zeroVec (tp * stride + s % stride) else 0 := by
  have hsm : s / stride * stride + s % stride = s := Nat.div_add_mod' s stride
  have hsplit : ∀ kp ∈ Finset.range cts.length,
      (∑ tp ∈ Finset.range N,
        if tp * cts.length + kp ≤ s / stride * cts.length + k
        then cts.getD kp zeroVec (tp * stride + s % stride) else 0)
      = (∑ tp ∈ Finset.range N,
          if tp = s / stride ∧ kp ≤ k
          then cts.getD kp zeroVec (tp * stride + s % stride) else 0)
        + ∑ tp ∈ Finset.range N,
          if tp < s / stride
          then cts.getD kp zeroVec (tp * stride + s % stride) else 0 := by
    intro kp hkp
    rw [← Finset.sum_add_distrib]
    refine Finset.sum_congr rfl ?_
    intro tp _
    have hiff := rowcol_le_iff cts.length (s / stride) tp k kp hk (Finset.mem_range.mp hkp)
    by_cases hc : tp * cts.length + kp ≤ s / stride * cts.length + k
    · rcases hiff.mp hc with h1 | h1
      · rw [if_pos hc, if_neg (by rintro ⟨he, _⟩; omega), if_pos h1, zero_add]
      · rw [if_pos hc, if_pos ⟨h1.1, h1.2⟩, if_neg (by omega), add_zero]
    · rw [if_neg hc, if_neg (fun hx => hc (hiff.mpr (Or.inr hx))),
        if_neg (fun hx => hc (hiff.mpr (Or.inl hx))), add_zero]
  rw [Finset.sum_congr rfl hsplit, Finset.sum_add_distrib]
  congr 1
  · have hinner : ∀ kp ∈ Finset.range cts.length,
        (∑ tp ∈ Finset.range N, if tp = s / stride ∧ kp ≤ k
          then cts.getD kp zeroVec (tp * stride + s % stride) else 0)
        = if kp ≤ k then cts.getD kp zeroVec s else 0 := by
      intro kp _
      by_cases hkk : kp ≤ k
      · have he : ∀ tp ∈ Finset.range N, (if tp = s / stride ∧ kp ≤ k
            then cts.getD kp zeroVec (tp * stride + s % stride) else 0)
            = if tp = s / stride
              then cts.getD kp zeroVec (tp * stride + s % stride) else 0 := by
          intro tp _
          by_cases hc : tp = s / stride
          · rw [if_pos ⟨hc, hkk⟩, if_pos hc]
          · rw [if_neg (by tauto), if_neg hc]
        rw [Finset.sum_congr rfl he,
          Finset.sum_ite_eq' (Finset.range N) (s / stride)
            (fun tp => cts.getD kp zeroVec (tp * stride + s % stride)),
          if_pos (Finset.mem_range.mpr ht), if_pos hkk, hsm]
      · rw [if_neg hkk]
        refine Finset.sum_eq_zero ?_
        intro tp _
        rw [if_neg (by tauto)]
    rw [Finset.sum_congr rfl hinner]
    rfl
  · rw [Finset.sum_comm]
    unfold Dstrict
    refine Finset.sum_congr rfl ?_
    intro tp _
    by_cases hc : tp < s / stride
    · rw [if_pos ⟨hc, one_dvd _⟩]
      unfold Urow
      refine Finset.sum_congr rfl ?_
      intro kp _
      rw [if_pos hc]
    · rw [if_neg (by tauto)]
      symm
      refine Finset.sum_eq_zero ?_
      intro kp _
      rw [if_neg hc]

/-- C2 amended: for a power-of-two slot count S, a stride that properly
divides it, any depth budget, and a nonempty input list, eval_in_place
replaces the k-th ciphertext by one whose slot s holds the sum of all
input entries of the interleaved virtual matrix lying in the column of s
with row index at most the row of (k, s).  The original claim admits
stride = S, where the constructor computes divc(0, 0), a division by
zero, so no phases exist; the input list must be nonempty because
eval_in_place reads the last element of the ciphertext vector. -/
theorem running_sums_eval_correct (S stride es : ℕ) (d : ℤ) (cts : List Vec)
    (phases : List (List (ℤ × Vec)))
    (hS : S = 2 ^ es) (hdvd : stride ∣ S) (hstr : 1 ≤ stride) (hlt : stride < S)
    (hB : 1 ≤ cts.length)
    (hph : rsCtorPhases S stride d = some phases) :
    ∀ k, k < cts.length → ∀ s, s < S →
      (rsEvalInPlace S phases cts).getD k zeroVec s
        = ∑ kp ∈ Finset.range cts.length, ∑ tp ∈ Finset.range (S / stride),
            if tp * cts.length + kp ≤ s / stride * cts.length + k
            then cts.getD kp zeroVec (tp * stride + s % stride) else 0 := by
  intro k hk s hs
  obtain ⟨D, hD1, hn, hparams⟩ := rsParams_eval S stride es d hS hdvd hstr hlt
  set df := (if d ≤ 0 ∨ (D : ℤ) < d then D else d.toNat) with hdf
  have hph2 : phases = rsCtorLoop S stride (2 ^ ((D + df - 1) / df)) (2 ^ D) (2 ^ D) := by
    unfold rsCtorPhases at hph
    rw [hparams] at hph
    simpa using hph.symm
  set eF := (D + df - 1) / df with heF
  have hdfb : 1 ≤ df := by
    by_cases hc : d ≤ 0 ∨ (D : ℤ) < d
    · rw [hdf, if_pos hc]; omega
    · rw [hdf, if_neg hc]; push_neg at hc; omega
  have heF1 : 1 ≤ eF := by
    rw [heF, Nat.le_div_iff_mul_le (by omega)]
    omega
  have hN : S = stride * (S / stride) := (Nat.mul_div_cancel' hdvd).symm
  have hSn : S = stride * 2 ^ D := by rw [← hn]; exact hN
  have hlen0 : (acrossSums cts).length = cts.length := acrossSums_length cts
  have hinv0 : ∀ k2, k2 < cts.length → ∀ s2, s2 < S →
      (acrossSums cts).getD k2 zeroVec s2
        = interV cts k2 s2 + Dstrict cts stride (S / stride) (2 ^ D) s2 := by
    intro k2 hk2 s2 hs2
    have hts2 : s2 / stride < 2 ^ D := Nat.div_lt_of_lt_mul (by omega)
    rw [hn, interV_getD_across cts k2 hk2 s2,
      Dstrict_at_N cts stride (2 ^ D) s2 hts2, add_zero]
  have hfold := rs_fold_inv cts S stride (S / stride) (2 ^ eF) eF hN hstr hB rfl heF1
    (2 ^ D) (2 ^ D) D rfl (by omega) (le_refl _) (acrossSums cts) hlen0 hinv0
  obtain ⟨hlenF, hinvF⟩ := hfold
  have hout : rsEvalInPlace S (rsCtorLoop S stride (2 ^ eF) (2 ^ D) (2 ^ D)) cts
      = (rsCtorLoop S stride (2 ^ eF) (2 ^ D) (2 ^ D)).foldl
          (fun cs2 ph => cs2.map (fun c => vAdd c (phaseAcc S (cs2.getLast?.getD zeroVec) ph)))
          (acrossSums cts) := rfl
  rw [hph2, hout, hinvF k hk s hs]
  exact interV_add_Dstrict_one cts stride (S / stride) hstr k s hk
    (Nat.div_lt_of_lt_mul (by omega))

/-- C2 counterexample: the stride equal to the slot count divides it and
is admitted by the claim, but the constructor then calls divc(0, 0),
dividing by zero; in the model the parameter computation yields no
phase list at slot count 8, stride 8, depth budget 3. -/
theorem running_sums_stride_full_has_no_phases : rsCtorPhases 8 8 3 = none := rfl

/-- C2 witness: slot count 8, stride 2, depth budget 0, one constant
input ciphertext; the conclusion is the instance at ciphertext 0,
slot 0. -/
theorem running_sums_eval_correct_witness :
    ((8 : ℕ) = 2 ^ 3) ∧ ((2 : ℕ) ∣ 8) ∧ ((1 : ℕ) ≤ 2) ∧ ((2 : ℕ) < 8) ∧
    (1 ≤ ([fun _ => (1 : ℚ)] : List Vec).length) ∧
    (rsCtorPhases 8 2 0 = some (rsCtorLoop 8 2 2 4 4)) ∧
    ((rsEvalInPlace 8 (rsCtorLoop 8 2 2 4 4) [fun _ => (1 : ℚ)]).getD 0 zeroVec 0
      = ∑ kp ∈ Finset.range ([fun _ => (1 : ℚ)] : List Vec).length,
          ∑ tp ∈ Finset.range (8 / 2),
          if tp * ([fun _ => (1 : ℚ)] : List Vec).length + kp
              ≤ 0 / 2 * ([fun _ => (1 : ℚ)] : List Vec).length + 0
          then ([fun _ => (1 : ℚ)] : List Vec).getD kp zeroVec (tp * 2 + 0 % 2) else 0) :=
  ⟨by decide, by decide, by decide, by decide, by decide, rfl,
    running_sums_eval_correct 8 2 3 0 [fun _ => (1 : ℚ)] (rsCtorLoop 8 2 2 4 4)
      (by decide) (by decide) (by decide) (by decide) (by decide) rfl
      0 (by decide) 0 (by decide)⟩
